import Mathlib

/-!
Verification development for the photo_organizer similarity and deduplication
engine.  The definitions below are a shallow embedding of the TypeScript
sources (`MediaComparator.ts`, `src/jobs/BaseFileInfoJob.ts`): JavaScript
numbers are modelled as exact extended rationals (`JsNum`: a rational, an
infinity, or NaN), `SharedArrayBuffer` perceptual hashes as byte lists,
thrown exceptions as `Except`, and `Set<string>` as `Finset String`.
-/

set_option maxRecDepth 8000

namespace PhotoOrganizer

/-- Exceptions thrown by the modelled JavaScript code: `typeError` stands for
a TypeError (e.g. mixing BigInt with `undefined`, or reading a property of
`undefined`), `rangeError` for the RangeError thrown by the
`BigUint64Array` constructor on a buffer whose byte length is not a
multiple of 8. -/
inductive JsError where
  | typeError
  | rangeError
deriving DecidableEq, Repr

/-- A JavaScript number, modelled exactly: NaN, the two infinities, or a
finite value represented as an exact rational (the model computes exactly
where IEEE-754 rounds; every claim settled below is robust to that gap). -/
inductive JsNum where
  | nan
  | inf
  | ninf
  | fin (q : ℚ)
deriving DecidableEq, Repr

namespace JsNum

/-- JavaScript addition. -/
def add : JsNum → JsNum → JsNum
  | nan, _ => nan
  | _, nan => nan
  | inf, ninf => nan
  | ninf, inf => nan
  | inf, _ => inf
  | _, inf => inf
  | ninf, _ => ninf
  | _, ninf => ninf
  | fin a, fin b => fin (a + b)

/-- JavaScript negation. -/
def neg : JsNum → JsNum
  | nan => nan
  | inf => ninf
  | ninf => inf
  | fin a => fin (-a)

/-- JavaScript subtraction. -/
def sub (a b : JsNum) : JsNum := add a (neg b)

/-- JavaScript division (finite zero behaves as +0). -/
def div : JsNum → JsNum → JsNum
  | nan, _ => nan
  | _, nan => nan
  | inf, inf => nan
  | inf, ninf => nan
  | ninf, inf => nan
  | ninf, ninf => nan
  | inf, fin b => if 0 ≤ b then inf else ninf
  | ninf, fin b => if 0 ≤ b then ninf else inf
  | fin _, inf => fin 0
  | fin _, ninf => fin 0
  | fin a, fin b =>
    if b = 0 then (if a = 0 then nan else if 0 < a then inf else ninf)
    else fin (a / b)

/-- JavaScript multiplication (only zero-times-infinity yields NaN among the
cases the sources reach). -/
def mul : JsNum → JsNum → JsNum
  | nan, _ => nan
  | _, nan => nan
  | inf, inf => inf
  | inf, ninf => ninf
  | ninf, inf => ninf
  | ninf, ninf => inf
  | inf, fin b => if b = 0 then nan else if 0 < b then inf else ninf
  | fin a, inf => if a = 0 then nan else if 0 < a then inf else ninf
  | ninf, fin b => if b = 0 then nan else if 0 < b then ninf else inf
  | fin a, ninf => if a = 0 then nan else if 0 < a then ninf else inf
  | fin a, fin b => fin (a * b)

/-- JavaScript `Math.min` of two numbers: NaN-propagating. -/
def min2 : JsNum → JsNum → JsNum
  | nan, _ => nan
  | _, nan => nan
  | ninf, _ => ninf
  | _, ninf => ninf
  | inf, b => b
  | a, inf => a
  | fin a, fin b => fin (min a b)

/-- JavaScript `Math.max` of two numbers: NaN-propagating. -/
def max2 : JsNum → JsNum → JsNum
  | nan, _ => nan
  | _, nan => nan
  | inf, _ => inf
  | _, inf => inf
  | ninf, b => b
  | a, ninf => a
  | fin a, fin b => fin (max a b)

/-- The JavaScript comparison `a <= b` (false whenever either side is NaN). -/
def le : JsNum → JsNum → Bool
  | nan, _ => false
  | _, nan => false
  | ninf, _ => true
  | _, ninf => false
  | _, inf => true
  | inf, _ => false
  | fin a, fin b => a ≤ b

/-- The JavaScript comparison `a < b` (false whenever either side is NaN). -/
def lt : JsNum → JsNum → Bool
  | nan, _ => false
  | _, nan => false
  | inf, _ => false
  | _, inf => true
  | _, ninf => false
  | ninf, _ => true
  | fin a, fin b => a < b

/-- The JavaScript comparison `a >= b`. -/
def ge (a b : JsNum) : Bool := le b a

/-- The JavaScript comparison `a > b`. -/
def gt (a b : JsNum) : Bool := lt b a

end JsNum

/-! ### Hamming distance (`MediaComparator.hammingDistance`, lines 34-75)

A `SharedArrayBuffer` hash is modelled as its byte list.  `popcount64` is a
bit-for-bit transcription of the BigInt code; note that JavaScript BigInts
do not wrap at 64 bits, so the final `(n * 0x0101010101010101n) >> 56n`
step keeps the high product bits — the transcription keeps them too. -/

/-- One 64-bit word of a byte buffer, little-endian, as `BigUint64Array`
reads it: word `i` covers bytes `8*i .. 8*i+7`. -/
def bytesToWord (bs : List ℕ) (i : ℕ) : ℕ :=
  ((bs.drop (8 * i)).take 8).foldr (fun b acc => b + 256 * acc) 0

/-- Transcription of `popcount64` on a BigInt.  All intermediate values stay
non-negative (each 2-bit group of `n` dominates the subtrahend), so `ℕ`
subtraction agrees with BigInt subtraction here. -/
def popcount64 (n : ℕ) : ℕ :=
  let n1 := n - ((n >>> 1) &&& 0x5555555555555555)
  let n2 := (n1 &&& 0x3333333333333333) + ((n1 >>> 2) &&& 0x3333333333333333)
  let n3 := (n2 + (n2 >>> 4)) &&& 0x0f0f0f0f0f0f0f0f
  (n3 * 0x0101010101010101) >>> 56

/-- Transcription of `popcount8` on a JavaScript Number in `[0, 255]`. -/
def popcount8 (n : ℕ) : ℕ :=
  let n1 := n - ((n >>> 1) &&& 0x55)
  let n2 := (n1 &&& 0x33) + ((n1 >>> 2) &&& 0x33)
  (n2 + (n2 >>> 4)) &&& 0x0f

/-- Transcription of `hammingDistance(hash1, hash2)`.  The
`BigUint64Array` constructors throw a RangeError when a buffer's byte
length is not a multiple of 8; reading `view2[i]` past the end of `hash2`
yields `undefined` and the subsequent BigInt `^` throws a TypeError.  In the
(post-guard unreachable) trailing-byte loop an out-of-range `uint8View2[i]`
is `undefined`, which `^` coerces to 0. -/
def hammingDistance (h1 h2 : List ℕ) : Except JsError ℕ := do
  if h1.length % 8 ≠ 0 then throw .rangeError
  else if h2.length % 8 ≠ 0 then throw .rangeError
  else
    let len1 := h1.length / 8
    let len2 := h2.length / 8
    let words ← (List.range len1).foldlM (fun acc i =>
      if i < len2 then
        pure (acc + popcount64 ((bytesToWord h1 i) ^^^ (bytesToWord h2 i)))
      else throw .typeError) 0
    let rem := h1.length % 8
    if rem > 0 then
      let start := h1.length - rem
      pure (words + ((List.range rem).map (fun k =>
        popcount8 ((h1.getD (start + k) 0) ^^^ (h2.getD (start + k) 0)))).sum)
    else
      pure words

/-! ### Data model (`src/types`, §3 of the spec) -/

/-- A perceptual-hash frame: hash bytes plus a timestamp in seconds. -/
structure FrameInfo where
  hash : List ℕ
  timestamp : ℚ
deriving DecidableEq, Repr

/-- Per-file media fingerprint: duration (0 for stills) and frame list. -/
structure MediaInfo where
  duration : ℚ
  frames : List FrameInfo
deriving DecidableEq, Repr

/-- The metadata fields the comparator reads.  `imageDate` is a `Date`
object in the source, so its JavaScript truthiness coincides with presence;
width and height are numbers-or-`undefined`. -/
structure Metadata where
  imageDate : Bool
  width : Option ℚ
  height : Option ℚ
deriving DecidableEq, Repr

/-- The slice of `FileInfo` the comparator consumes. -/
structure FileInfo where
  media : MediaInfo
  metadata : Metadata
deriving DecidableEq, Repr

/-- The similarity-configuration fields `MediaComparator` reads. -/
structure SimilarityConfig where
  imageSimilarityThreshold : ℚ
  imageVideoSimilarityThreshold : ℚ
  videoSimilarityThreshold : ℚ
  stepSize : ℚ
deriving DecidableEq, Repr

/-- The `minThreshold` as computed in the constructor:
`Math.min(image, imageVideo, video)`, folded left as varargs `Math.min`. -/
def minThreshold (cfg : SimilarityConfig) : ℚ :=
  min (min cfg.imageSimilarityThreshold cfg.imageVideoSimilarityThreshold)
    cfg.videoSimilarityThreshold

/-! ### Similarity kernel (`MediaComparator`, lines 378-515) -/

/-- Model of `calculateImageSimilarity(frame1, frame2)`:
`1 - distance / (byteLength * 8)`. -/
def calculateImageSimilarity (f1 f2 : FrameInfo) : Except JsError JsNum := do
  let d ← hammingDistance f1.hash f2.hash
  pure (JsNum.sub (.fin 1) (JsNum.div (.fin d) (.fin (f1.hash.length * 8))))

/-- Loop body of `calculateImageVideoSimilarity`: track the best similarity
seen, and return early once it reaches the image-video threshold. -/
def imageVideoLoop (cfg : SimilarityConfig) (imageFrame : FrameInfo) :
    List FrameInfo → JsNum → Except JsError JsNum
  | [], best => pure best
  | vf :: rest, best => do
    let sim ← calculateImageSimilarity imageFrame vf
    if JsNum.gt sim best then
      if JsNum.ge sim (.fin cfg.imageVideoSimilarityThreshold) then
        pure sim
      else
        imageVideoLoop cfg imageFrame rest sim
    else
      imageVideoLoop cfg imageFrame rest best

/-- Model of `calculateImageVideoSimilarity(image, video)`. -/
def calculateImageVideoSimilarity (cfg : SimilarityConfig)
    (image video : MediaInfo) : Except JsError JsNum :=
  match image.frames with
  | [] => pure (.fin 0)
  | imageFrame :: _ =>
    if video.frames = [] then pure (.fin 0)
    else imageVideoLoop cfg imageFrame video.frames (.fin 0)

/-- Inner loop of `calculateSequenceSimilarityDTW`: one pass over the old
row.  `pairs` holds, for each remaining column `j`, the frame `seq2[j-1]`
together with the old value `dtw[j]`; `prev` is the saved old `dtw[j-1]`
and `left` the freshly written `dtw[j-1]`.  Returns the new values of
columns `j .. n`. -/
def dtwRowLoop (f1 : FrameInfo) :
    List (FrameInfo × JsNum) → JsNum → JsNum → Except JsError (List JsNum)
  | [], _, _ => pure []
  | (f2, oldj) :: rest, prev, left => do
    let sim ← calculateImageSimilarity f1 f2
    let cost := JsNum.sub (.fin 1) sim
    let newj := JsNum.add cost (JsNum.min2 (JsNum.min2 prev oldj) left)
    let tail ← dtwRowLoop f1 rest oldj newj
    pure (newj :: tail)

/-- Outer loop of `calculateSequenceSimilarityDTW`: fold the rolling row
over the frames of `seq1`.  Position 0 of the new row is reset to `+inf`
and the saved old position 0 seeds `prev`. -/
def dtwOuterLoop (seq2 : List FrameInfo) :
    List FrameInfo → List JsNum → Except JsError (List JsNum)
  | [], row => pure row
  | f1 :: rest, row => do
    let newTail ← dtwRowLoop f1 (seq2.zip row.tail) (row.headD .inf) .inf
    dtwOuterLoop seq2 rest (.inf :: newTail)

/-- Model of `calculateSequenceSimilarityDTW(seq1, seq2)`: rolling-row dynamic time
warping; the row starts as `[0, +inf, ..., +inf]` and the result is
`1 - dtw[n] / max(m, n)`. -/
def calculateSequenceSimilarityDTW (seq1 seq2 : List FrameInfo) :
    Except JsError JsNum := do
  let m := seq1.length
  let n := seq2.length
  let row ← dtwOuterLoop seq2 seq1 (.fin 0 :: List.replicate n .inf)
  pure (JsNum.sub (.fin 1) (JsNum.div (row.getD n .nan) (.fin (max m n))))

/-- Model of `getFramesInTimeRange(media, startTime, endTime)`. -/
def getFramesInTimeRange (media : MediaInfo) (startTime endTime : ℚ) :
    List FrameInfo :=
  media.frames.filter (fun f => startTime ≤ f.timestamp ∧ f.timestamp ≤ endTime)

/-- Start times visited by the sliding-window loop of
`calculateVideoSimilarity`: `0, step, 2*step, ...` while
`startTime <= longerDuration - windowDuration`.  The model enumerates the
exact rational start times for a positive step; for a non-positive step the
source loop would never terminate, so the model returns no windows there. -/
def windowStarts (longerDuration windowDuration step : ℚ) : List ℚ :=
  if 0 < step ∧ windowDuration ≤ longerDuration then
    (List.range (((longerDuration - windowDuration) / step).floor.toNat + 1)).map
      (fun k => k * step)
  else []

/-- Window loop of `calculateVideoSimilarity`: DTW each window of the longer
media against the whole shorter media, tracking `Math.max`, and break once
the best similarity reaches the video threshold. -/
def videoWindowLoop (cfg : SimilarityConfig) (shorter longer : MediaInfo)
    (windowDuration : ℚ) : List ℚ → JsNum → Except JsError JsNum
  | [], best => pure best
  | s :: rest, best => do
    let subseq := getFramesInTimeRange longer s (s + windowDuration)
    let w ← calculateSequenceSimilarityDTW subseq shorter.frames
    let best1 := JsNum.max2 best w
    if JsNum.ge best1 (.fin cfg.videoSimilarityThreshold) then pure best1
    else videoWindowLoop cfg shorter longer windowDuration rest best1

/-- Model of `calculateVideoSimilarity(media1, media2)`. -/
def calculateVideoSimilarity (cfg : SimilarityConfig)
    (media1 media2 : MediaInfo) : Except JsError JsNum :=
  let sl := if media1.duration ≤ media2.duration then (media1, media2)
    else (media2, media1)
  let shorter := sl.1
  let longer := sl.2
  let windowDuration := shorter.duration
  videoWindowLoop cfg shorter longer windowDuration
    (windowStarts longer.duration windowDuration cfg.stepSize) (.fin 0)

/-- Model of `calculateSimilarity(media1, media2)`: dispatch on media kinds.  In the
image-image branch the source reads `frames[0]` without an emptiness
check, so an empty frame list makes `calculateImageSimilarity` dereference
`undefined` and throw a TypeError. -/
def calculateSimilarity (cfg : SimilarityConfig) (media1 media2 : MediaInfo) :
    Except JsError JsNum :=
  if media1.duration = 0 ∧ media2.duration = 0 then
    match media1.frames, media2.frames with
    | f1 :: _, f2 :: _ => calculateImageSimilarity f1 f2
    | _, _ => throw .typeError
  else if media1.duration = 0 ∨ media2.duration = 0 then
    calculateImageVideoSimilarity cfg
      (if media1.duration = 0 then media1 else media2)
      (if media1.duration = 0 then media2 else media1)
  else
    calculateVideoSimilarity cfg media1 media2

/-- Model of `getAdaptiveThreshold(media1, media2)`. -/
def getAdaptiveThreshold (cfg : SimilarityConfig) (media1 media2 : MediaInfo) :
    ℚ :=
  if media1.duration = 0 ∧ media2.duration = 0 then
    cfg.imageSimilarityThreshold
  else if media1.duration = 0 ∨ media2.duration = 0 then
    cfg.imageVideoSimilarityThreshold
  else cfg.videoSimilarityThreshold

/-! ### VPTree interface and worker environment

`VPTree.ts` is not part of the sources under verification, so the tree is
modelled from the spec as an oracle: an arbitrary result function
constrained by the spec-level guarantees of a vantage-point-tree range
search. -/

/-- One neighbor returned by `vpTree.search`: a stored point and its
distance from the query. -/
structure SearchResult where
  point : String
  distance : ℚ
deriving DecidableEq, Repr

/-- Modelled from the spec: `VPTree.ts` is missing from `src/`.  Per §4.4
the tree is built over a collection of points and
`search(query, { maxDistance })` "returns all points within ε of the
query", each emitted point being a stored point (`vp` of some node) with
`δ ≤ ε`.  The model keeps the result list abstract (`resultsFor`) and
imposes exactly those two guarantees. -/
structure VPTreeModel where
  points : List String
  resultsFor : String → ℚ → List SearchResult

/-- Range search of the modelled tree (see `VPTreeModel`). -/
def VPTreeModel.search (t : VPTreeModel) (query : String) (maxDistance : ℚ) :
    List SearchResult :=
  (t.resultsFor query maxDistance).filter
    (fun r => decide (r.point ∈ t.points) && decide (r.distance ≤ maxDistance))

/-- The ambient collaborators of `MediaComparator`: the similarity config,
the `FileProcessor` selector passed to `deduplicateFiles`, the
`mediaProcessor.processFile` lookup used by `getValidNeighbors`, the entry
scoring function, and the VPTree search oracle.  `score` stands for
`calculateEntryScore`, whose value mixes `Math.log` and `Math.sqrt` and is
therefore not a rational; every selection theorem below holds for an
arbitrary score function, hence in particular for the real one. -/
structure Env where
  cfg : SimilarityConfig
  selector : String → FileInfo
  processFile : String → FileInfo
  score : FileInfo → ℚ
  resultsFor : String → ℚ → List SearchResult

/-- The DBSCAN radius: `eps = 1 - minThreshold`. -/
def dedupEps (cfg : SimilarityConfig) : ℚ := 1 - minThreshold cfg

/-- Model of `getValidNeighbors(point, vpTree, eps)`: range-search the tree, keep a
neighbor iff it is the query itself or its pair-specific similarity
`1 - distance` reaches the adaptive threshold, and project to points. -/
def getValidNeighbors (env : Env) (t : VPTreeModel) (point : String) (eps : ℚ) :
    List String :=
  ((t.search point eps).filter (fun n =>
    decide (n.point = point) ||
    decide (getAdaptiveThreshold env.cfg (env.processFile point).media
      (env.processFile n.point).media ≤ 1 - n.distance))).map (·.point)

/-- Expansion loop of `workerDBSCAN` (the `while (stack.length > 0)` loop).
The stack is kept top-first (the source pops from the array's end, so the
seed neighbors enter reversed and pushes prepend reversed).  `fuel` bounds
the iteration count; `dbscanFuel` below always suffices, and every
invariant proved about this loop holds for every fuel value. -/
def expandLoop (env : Env) (t : VPTreeModel) (eps : ℚ) :
    ℕ → List String → Finset String → Finset String →
    Finset String × Finset String
  | 0, _, visited, cluster => (visited, cluster)
  | _ + 1, [], visited, cluster => (visited, cluster)
  | fuel + 1, current :: rest, visited, cluster =>
    if current ∈ visited then expandLoop env t eps fuel rest visited cluster
    else
      let visited1 := insert current visited
      let cluster1 := insert current cluster
      let currentNeighbors := getValidNeighbors env t current eps
      if 2 ≤ currentNeighbors.length then
        expandLoop env t eps fuel
          ((currentNeighbors.filter (fun n => decide (n ∉ visited1))).reverse
            ++ rest) visited1 cluster1
      else
        expandLoop env t eps fuel rest visited1 cluster1

/-- Fuel that always completes `expandLoop`: every pop is either one of the
seed's neighbors or was pushed at the first visit of some tree point, and
each tree point is visited at most once across a whole `workerDBSCAN` run. -/
def dbscanFuel (env : Env) (t : VPTreeModel) (eps : ℚ) : ℕ :=
  (t.points.map (fun p => (getValidNeighbors env t p eps).length)).sum + 1

/-- Scan loop of `workerDBSCAN` (the `for (const point of chunk)` loop). -/
def scanLoop (env : Env) (t : VPTreeModel) (eps : ℚ) :
    List String → Finset String → List (Finset String) → List (Finset String)
  | [], _, clusters => clusters
  | point :: rest, visited, clusters =>
    if point ∈ visited then scanLoop env t eps rest visited clusters
    else
      let visited1 := insert point visited
      let neighbors := getValidNeighbors env t point eps
      if neighbors.length < 2 then
        scanLoop env t eps rest visited1 (clusters ++ [{point}])
      else
        let vc := expandLoop env t eps
          (dbscanFuel env t eps + neighbors.length) neighbors.reverse
          visited1 {point}
        scanLoop env t eps rest vc.1 (clusters ++ [vc.2])

/-- Model of `workerDBSCAN(chunk, vpTree)`: density clustering with `minPts = 2` and
`eps = 1 - minThreshold`. -/
def workerDBSCAN (env : Env) (t : VPTreeModel) (chunk : List String) :
    List (Finset String) :=
  scanLoop env t (dedupEps env.cfg) chunk ∅ []

/-- One step of `mergeAndDeduplicate`.  The source keeps an
`elementToClusterMap` whose value at `e` is always the unique installed
cluster containing `e`; hence `relatedClusters` is exactly the set of
installed clusters meeting the incoming one, and `splice` removes exactly
those, appending their union with the incoming cluster. -/
def mergeStep (merged : List (Finset String)) (cluster : Finset String) :
    List (Finset String) :=
  let related := merged.filter (fun c => decide (c ∩ cluster ≠ ∅))
  if related.isEmpty then merged ++ [cluster]
  else
    (merged.filter (fun c => decide (c ∩ cluster = ∅)))
      ++ [related.foldl (· ∪ ·) cluster]

/-- Model of `mergeAndDeduplicate(clusters)`: left fold of `mergeStep`. -/
def mergeAndDeduplicate (clusters : List (Finset String)) :
    List (Finset String) :=
  clusters.foldl mergeStep []

/-- Batches of 2048 files, as cut by `parallelDBSCAN`'s `slice` loop. -/
def chunkBatches : List String → List (List String)
  | [] => []
  | x :: xs => ((x :: xs).take 2048) :: chunkBatches ((x :: xs).drop 2048)
termination_by l => l.length
decreasing_by simp [List.length_drop]; omega

/-- A duplicate group of a `DeduplicationResult`. -/
structure DupSet where
  bestFile : String
  representatives : Finset String
  duplicates : Finset String
deriving DecidableEq

/-- The `DeduplicationResult` record. -/
structure DeduplicationResult where
  uniqueFiles : Finset String
  duplicateSets : List DupSet
deriving DecidableEq

/-- Enumerate a modelled `Set<string>`.  `Array.from` enumerates insertion
order; the model enumerates the canonical lexicographic order instead (an
executable choice), and every property proved below is independent of the
enumeration order. -/
def finsetToList (s : Finset String) : List String := s.sort (· ≤ ·)

/-- Stable insertion into a descending run, by a rational sort key:
models one placement of the stable `Array.prototype.sort` with comparator
`(a, b) => b.score - a.score` used by `scoreEntries`. -/
def insertDesc (key : String → ℚ) (x : String) : List String → List String
  | [] => [x]
  | y :: ys => if key y ≤ key x then x :: y :: ys else y :: insertDesc key x ys

/-- Stable descending sort by a rational key (see `insertDesc`):
the output of `scoreEntries`. -/
def sortByKeyDesc (key : String → ℚ) : List String → List String
  | [] => []
  | x :: xs => insertDesc key x (sortByKeyDesc key xs)

/-- Model of `getQuality(fileInfo)`: `metadata.width * metadata.height`, with
`undefined` operands turning the product into NaN. -/
def getQuality (fi : FileInfo) : JsNum :=
  JsNum.mul (match fi.metadata.width with | some w => .fin w | none => .nan)
    (match fi.metadata.height with | some h => .fin h | none => .nan)

/-- Model of `handleMultiFrameBest(sortedEntries, selector)`.  `dedupCb` stands for
the recursive `this.deduplicateFiles` call on the potential captures; it is
a parameter so that the mutual recursion can be tied by fuel in
`deduplicateFilesFuel`. -/
def handleMultiFrameBestWith (env : Env)
    (dedupCb : List String → DeduplicationResult) (sorted : List String) :
    List String :=
  let bestEntry := sorted.headD ""
  let bestFileInfo := env.selector bestEntry
  let potentialCaptures := sorted.filter (fun e =>
    let fi := env.selector e
    decide (fi.media.duration = 0) &&
    JsNum.ge (getQuality fi) (getQuality bestFileInfo) &&
    (!bestFileInfo.metadata.imageDate || fi.metadata.imageDate))
  bestEntry ::
    (if potentialCaptures.isEmpty then []
     else finsetToList (dedupCb potentialCaptures).uniqueFiles)

/-- Model of `selectRepresentatives(cluster, selector)`. -/
def selectRepresentativesWith (env : Env)
    (dedupCb : List String → DeduplicationResult) (cluster : List String) :
    List String :=
  if cluster.length ≤ 1 then cluster
  else
    let sorted := sortByKeyDesc (fun e => env.score (env.selector e)) cluster
    let bestEntry := sorted.headD ""
    if (env.selector bestEntry).media.duration = 0 then [bestEntry]
    else handleMultiFrameBestWith env dedupCb sorted

/-- One cluster step of `processResults`: singletons feed `uniqueFiles`
(the union adds exactly the one element), larger clusters produce a
duplicate set whose `bestFile` is the first representative. -/
def processResultsStep (env : Env)
    (dedupCb : List String → DeduplicationResult)
    (acc : Finset String × List DupSet) (c : Finset String) :
    Finset String × List DupSet :=
  if c.card = 1 then (acc.1 ∪ c, acc.2)
  else
    let representatives := selectRepresentativesWith env dedupCb (finsetToList c)
    let repSet := representatives.toFinset
    let dupes := ((finsetToList c).filter (fun f => decide (f ∉ repSet))).toFinset
    (acc.1, acc.2 ++ [⟨representatives.headD "", repSet, dupes⟩])

/-- Model of `processResults(clusters, selector)`. -/
def processResultsWith (env : Env)
    (dedupCb : List String → DeduplicationResult)
    (clusters : List (Finset String)) : DeduplicationResult :=
  let r := clusters.foldl (processResultsStep env dedupCb) (∅, [])
  ⟨r.1, r.2⟩

/-- Model of `deduplicateFiles(files, selector)` with explicit recursion fuel: build
the tree over the input files, run batched `workerDBSCAN`, merge the
overlapping batch results and post-process them.  The representative
selection inside `processResults` recurses into `deduplicateFiles` on a
strict subset of a cluster, so `files.length + 1` fuel always suffices;
out-of-fuel (unreachable from `deduplicateFiles`) declares every file
unique. -/
def deduplicateFilesFuel (env : Env) : ℕ → List String → DeduplicationResult
  | 0, files => ⟨files.toFinset, []⟩
  | fuel + 1, files =>
    let t : VPTreeModel := ⟨files, env.resultsFor⟩
    let clusters :=
      ((chunkBatches files).map (fun batch => workerDBSCAN env t batch)).flatten
    processResultsWith env (deduplicateFilesFuel env fuel)
      (mergeAndDeduplicate clusters)

/-- Model of `deduplicateFiles(files, selector)`. -/
def deduplicateFiles (env : Env) (files : List String) : DeduplicationResult :=
  deduplicateFilesFuel env (files.length + 1) files

/-! ### The per-job cache (`src/jobs/BaseFileInfoJob.ts`) -/

/-- The two key-value stores backing one job: `<name>` for results and
`<name>_config` for the config that produced each entry. -/
structure CacheState (C R : Type) where
  data : String → Option R
  config : String → Option C

/-- Result of one `process` call, instrumented with whether `processFile`
ran (`recomputed`). -/
structure ProcessOutcome (C R : Type) where
  result : R
  state : CacheState C R
  recomputed : Bool

/-- Model of `isConfigValid(cachedConfig)`: `JSON.stringify` equality of the cached
config against the current one; an absent entry (`undefined`) never
matches.  The model reads stringify-equality as value equality, the
canonical-serialization assumption §9 records. -/
def isConfigValid {C : Type} [DecidableEq C] (current : C) :
    Option C → Bool
  | some c => c = current
  | none => false

/-- Model of `BaseFileInfoJob.process(filePath)`: under the per-key lock, return the
cached result when the cached config matches and the cached value is
truthy; otherwise recompute via `processFile` and store both the result
and the current config.  `truthy` models the JavaScript truthiness test
`if (cachedResult)`. -/
def cacheProcess {C R : Type} [DecidableEq C] (cfg : C)
    (getHashKey : String → String) (processFile : String → R)
    (truthy : R → Bool) (st : CacheState C R) (path : String) :
    ProcessOutcome C R :=
  let k := getHashKey path
  let hit := if isConfigValid cfg (st.config k) then
      match st.data k with
      | some r => if truthy r then some r else none
      | none => none
    else none
  match hit with
  | some r => ⟨r, st, false⟩
  | none =>
    let r := processFile path
    ⟨r,
      ⟨fun k1 => if k1 = k then some r else st.data k1,
       fun k1 => if k1 = k then some cfg else st.config k1⟩,
      true⟩

/-! ### Concrete inputs used by witnesses and counterexamples -/

instance {ε α : Type} [DecidableEq ε] [DecidableEq α] :
    DecidableEq (Except ε α) := fun a b =>
  match a, b with
  | .ok x, .ok y =>
    if h : x = y then isTrue (by rw [h]) else isFalse (by simp [h])
  | .error e, .error f =>
    if h : e = f then isTrue (by rw [h]) else isFalse (by simp [h])
  | .ok _, .error _ => isFalse (by simp)
  | .error _, .ok _ => isFalse (by simp)

/-- An all-zero 64-bit hash. -/
def hashZero : List ℕ := [0, 0, 0, 0, 0, 0, 0, 0]

/-- A 64-bit hash whose only set bit is bit 63 (high bit of the last byte). -/
def hashHigh : List ℕ := [0, 0, 0, 0, 0, 0, 0, 128]

/-- A frame carrying `hashZero`. -/
def frameZero : FrameInfo := ⟨hashZero, 0⟩

/-- A frame carrying `hashHigh`. -/
def frameHigh : FrameInfo := ⟨hashHigh, 0⟩

/-- A still image whose single frame is `frameZero`. -/
def imageZero : MediaInfo := ⟨0, [frameZero]⟩

/-- A still image whose single frame is `frameHigh`. -/
def imageHigh : MediaInfo := ⟨0, [frameHigh]⟩

/-- A configuration with all thresholds `1/2` and step size 1. -/
def cfgHalf : SimilarityConfig := ⟨1/2, 1/2, 1/2, 1⟩

/-! ### C7 / C1: the BigInt popcount overflow -/

/-- C7: the claim asserts `hammingDistance` is symmetric, zero on equal
inputs and bounded by the bit length.  The code violates the bound: for two
64-bit hashes differing exactly in bit 63, `popcount64`'s final SWAR step
`(n * 0x0101010101010101n) >> 56n` does not wrap (BigInts are unbounded),
so the distance comes out as `0x0101010101010101 = 72340172838076673`,
vastly above `bitlen = 64`.  This theorem evaluates the code at that
failing input. -/
theorem c7_hamming_distance_exceeds_bitlen :
    hammingDistance hashZero hashHigh = .ok 72340172838076673 ∧
    ¬ (72340172838076673 ≤ hashZero.length * 8) := by
  constructor
  · with_unfolding_all decide
  · decide

/-- C1: the claim asserts `calculateSimilarity` is symmetric, valued in
`[0, 1]` and reflexive-one.  Through the `popcount64` overflow (see
`c7_hamming_distance_exceeds_bitlen`) the image-image branch returns a
similarity far below 0 for two single-frame images with 64-bit hashes
differing in bit 63, violating the `[0, 1]` range.  This theorem evaluates
the code at that failing input. -/
theorem c1_similarity_below_zero :
    calculateSimilarity cfgHalf imageZero imageHigh =
      .ok (.fin (1 - 72340172838076673 / 64)) ∧
    (1 - 72340172838076673 / 64 : ℚ) < 0 := by
  have h : hammingDistance hashZero hashHigh = .ok 72340172838076673 := by
    with_unfolding_all decide
  refine ⟨?_, by norm_num⟩
  simp only [calculateSimilarity, imageZero, imageHigh, calculateImageSimilarity,
    frameZero, frameHigh, h]
  norm_num [JsNum.sub, JsNum.add, JsNum.neg, JsNum.div, hashZero, Except.bind]

/-! ### C8: behavior on hashes of different lengths -/

/-- The word-loop body of `hammingDistance`. -/
def hammingWordStep (h1 h2 : List ℕ) (len2 : ℕ) (acc i : ℕ) :
    Except JsError ℕ :=
  if i < len2 then
    pure (acc + popcount64 ((bytesToWord h1 i) ^^^ (bytesToWord h2 i)))
  else throw .typeError

lemma hammingWordStep_eq (h1 h2 : List ℕ) (len2 : ℕ) :
    (fun (acc i : ℕ) =>
      if i < len2 then
        pure (acc + popcount64 ((bytesToWord h1 i) ^^^ (bytesToWord h2 i)))
      else throw .typeError) = hammingWordStep h1 h2 len2 := rfl

lemma except_throw_bind {ε α β : Type} (e : ε) (f : α → Except ε β) :
    ((throw e : Except ε α) >>= f) = Except.error e := rfl

lemma except_pure_bind {ε α β : Type} (a : α) (f : α → Except ε β) :
    ((pure a : Except ε α) >>= f) = f a := rfl

lemma except_ok_bind {ε α β : Type} (a : α) (f : α → Except ε β) :
    (Except.ok a >>= f) = f a := rfl

lemma wordLoop_ok (h1 h2 : List ℕ) (len2 : ℕ) :
    ∀ (l : List ℕ) (acc : ℕ), (∀ i ∈ l, i < len2) →
    ∃ n, l.foldlM (hammingWordStep h1 h2 len2) acc = .ok n := by
  intro l
  induction l with
  | nil => exact fun acc _ => ⟨acc, rfl⟩
  | cons x xs ih =>
    intro acc hmem
    have hx : x < len2 := hmem x (by simp)
    obtain ⟨n, hn⟩ := ih (acc + popcount64 ((bytesToWord h1 x) ^^^ (bytesToWord h2 x)))
      (fun i hi => hmem i (by simp [hi]))
    exact ⟨n, by simpa [List.foldlM, hammingWordStep, hx] using hn⟩

lemma wordLoop_error (h1 h2 : List ℕ) (len2 : ℕ) :
    ∀ (l : List ℕ) (acc : ℕ), (∃ i ∈ l, len2 ≤ i) →
    l.foldlM (hammingWordStep h1 h2 len2) acc = .error .typeError := by
  intro l
  induction l with
  | nil => rintro acc ⟨i, hi, -⟩; cases hi
  | cons x xs ih =>
    rintro acc ⟨i, hi, hle⟩
    by_cases hx : x < len2
    · have hixs : i ∈ xs := by
        rcases List.mem_cons.1 hi with h | h
        · exfalso; omega
        · exact h
      simpa [List.foldlM, hammingWordStep, hx] using
        ih (acc + popcount64 ((bytesToWord h1 x) ^^^ (bytesToWord h2 x))) ⟨i, hixs, hle⟩
    · simp [List.foldlM, hammingWordStep, hx, except_throw_bind]

/-- C8 counterexample: the claim asserts every distance computation on
hashes of different bit lengths fails with a `BitlenMismatch` error.  For
an 8-byte first hash and a 16-byte second hash the source completes
without any error (the extra bytes are silently ignored), returning 0. -/
theorem c8_counterexample_no_error_on_longer :
    hammingDistance hashZero (hashZero ++ hashHigh) = .ok 0 := by
  with_unfolding_all decide

/-- C8 amended: the source has no length check at all (and hence no
`BitlenMismatch`).  For hashes whose byte lengths are multiples of 8, a
second hash shorter than the first makes the word loop read past
`view2`'s end, and the BigInt xor with `undefined` throws a TypeError; a
second hash longer than the first completes without error, silently
ignoring the extra bytes.  (Purity — "no side effects" — is inherited by
the embedding.) -/
theorem c8_amended_mismatch_behavior :
    (∀ h1 h2 : List ℕ, h1.length % 8 = 0 → h2.length % 8 = 0 →
      h2.length < h1.length →
      hammingDistance h1 h2 = .error .typeError) ∧
    (∀ h1 h2 : List ℕ, h1.length % 8 = 0 → h2.length % 8 = 0 →
      h1.length < h2.length →
      ∃ n, hammingDistance h1 h2 = .ok n) := by
  constructor
  · intro h1 h2 m1 m2 hlt
    have hdiv : h2.length / 8 < h1.length / 8 := by omega
    rw [hammingDistance]
    simp only [m1, m2, hammingWordStep_eq]
    rw [wordLoop_error h1 h2 (h2.length / 8) (List.range (h1.length / 8)) 0
      ⟨h2.length / 8, List.mem_range.2 hdiv, le_refl _⟩]
    simp [m1]
  · intro h1 h2 m1 m2 hlt
    have hdiv : h1.length / 8 ≤ h2.length / 8 := by omega
    rw [hammingDistance]
    simp only [m1, m2, hammingWordStep_eq]
    obtain ⟨n, hn⟩ := wordLoop_ok h1 h2 (h2.length / 8)
      (List.range (h1.length / 8)) 0
      (fun i hi => lt_of_lt_of_le (List.mem_range.1 hi) hdiv)
    rw [hn]
    exact ⟨n, by simp [m1]⟩

/-- C8 witness: the amended theorem applied at concrete inputs — a 16-byte
first hash with an 8-byte second throws a TypeError, and the swapped pair
succeeds. -/
theorem c8_amended_mismatch_behavior_witness :
    hammingDistance (hashZero ++ hashHigh) hashZero = .error .typeError ∧
    ∃ n, hammingDistance hashZero (hashZero ++ hashHigh) = .ok n :=
  ⟨c8_amended_mismatch_behavior.1 (hashZero ++ hashHigh) hashZero
      (by decide) (by decide) (by decide),
    c8_amended_mismatch_behavior.2 hashZero (hashZero ++ hashHigh)
      (by decide) (by decide) (by decide)⟩

/-! ### C5: the DTW rolling row computes the classical DTW matrix -/

/-- Value of `calculateImageSimilarity` with errors mapped to NaN; used to
state the DTW cost matrix (the amended C5 theorem assumes error-freedom,
under which the two coincide). -/
def imageSimVal (f1 f2 : FrameInfo) : JsNum :=
  match calculateImageSimilarity f1 f2 with
  | .ok v => v
  | .error _ => .nan

/-- The textbook DTW cost matrix over the frame cost
`1 - imageSim(seq1[i-1], seq2[j-1])`, with the same three-way minimum the
rolling row takes. -/
def dtwMatrix (seq1 seq2 : List FrameInfo) : ℕ → ℕ → JsNum
  | 0, 0 => .fin 0
  | _ + 1, 0 => .inf
  | 0, _ + 1 => .inf
  | i + 1, j + 1 =>
    JsNum.add
      (JsNum.sub (.fin 1) (imageSimVal (seq1.getD i ⟨[], 0⟩) (seq2.getD j ⟨[], 0⟩)))
      (JsNum.min2
        (JsNum.min2 (dtwMatrix seq1 seq2 i j) (dtwMatrix seq1 seq2 i (j + 1)))
        (dtwMatrix seq1 seq2 (i + 1) j))
termination_by i j => (i, j)

lemma dtwMatrix_pos_zero (seq1 seq2 : List FrameInfo) (i : ℕ) :
    dtwMatrix seq1 seq2 (i + 1) 0 = .inf := by
  rw [dtwMatrix]

lemma dtwMatrix_zero_pos (seq1 seq2 : List FrameInfo) (j : ℕ) :
    dtwMatrix seq1 seq2 0 (j + 1) = .inf := by
  rw [dtwMatrix]

/-- No-error hypothesis for a DTW run: every frame-pair similarity the loop
can request succeeds. -/
def DtwOk (seq1 seq2 : List FrameInfo) : Prop :=
  ∀ f1 ∈ seq1, ∀ f2 ∈ seq2, ∃ q, calculateImageSimilarity f1 f2 = .ok q

lemma dtwRowLoop_spec (seq1 seq2 : List FrameInfo) (hOK : DtwOk seq1 seq2)
    (i : ℕ) (hi : i < seq1.length) :
    ∀ (k j0 : ℕ), j0 + k = seq2.length →
    dtwRowLoop (seq1.getD i ⟨[], 0⟩)
      ((seq2.drop j0).zip
        (((List.range (seq2.length + 1)).map (dtwMatrix seq1 seq2 i)).drop (j0 + 1)))
      (dtwMatrix seq1 seq2 i j0) (dtwMatrix seq1 seq2 (i + 1) j0)
    = .ok ((List.range' (j0 + 1) k).map (dtwMatrix seq1 seq2 (i + 1))) := by
  intro k
  induction k with
  | zero =>
    intro j0 hj0
    rw [List.drop_eq_nil_of_le (by omega)]
    simp only [List.range'_zero, List.map_nil, List.zip_nil_left, dtwRowLoop]
    rfl
  | succ k ih =>
    intro j0 hj0
    have hj0n : j0 < seq2.length := by omega
    rw [List.drop_eq_getElem_cons hj0n]
    have hdropmap :
        ((List.range (seq2.length + 1)).map (dtwMatrix seq1 seq2 i)).drop (j0 + 1) =
        (dtwMatrix seq1 seq2 i (j0 + 1)) ::
          ((List.range (seq2.length + 1)).map (dtwMatrix seq1 seq2 i)).drop (j0 + 2) := by
      rw [List.drop_eq_getElem_cons (by simpa using by omega)]
      congr 1
      simp
    rw [hdropmap]
    obtain ⟨q, hq⟩ := hOK (seq1.getD i ⟨[], 0⟩)
      (by rw [List.getD_eq_getElem _ _ hi]; exact List.getElem_mem _)
      (seq2[j0]) (List.getElem_mem _)
    simp only [List.zip_cons_cons, dtwRowLoop, hq, except_ok_bind]
    have hstep :
        JsNum.add (JsNum.sub (.fin 1) q)
          (JsNum.min2
            (JsNum.min2 (dtwMatrix seq1 seq2 i j0) (dtwMatrix seq1 seq2 i (j0 + 1)))
            (dtwMatrix seq1 seq2 (i + 1) j0)) =
        dtwMatrix seq1 seq2 (i + 1) (j0 + 1) := by
      rw [dtwMatrix]
      have : imageSimVal (seq1.getD i ⟨[], 0⟩) (seq2.getD j0 ⟨[], 0⟩) = q := by
        rw [List.getD_eq_getElem _ _ hj0n, imageSimVal, hq]
      rw [this]
    rw [hstep]
    have ihr := ih (j0 + 1) (by omega)
    rw [show (j0:ℕ) + 1 + 1 = j0 + 2 from rfl] at ihr
    simp only [List.zip] at ihr ⊢
    rw [ihr]
    simp only [except_ok_bind]
    have hrange := List.range'_succ (j0 + 1) k 1
    rw [hrange]
    simp only [List.map_cons]
    rfl

lemma dtwOuterLoop_spec (seq1 seq2 : List FrameInfo) (hOK : DtwOk seq1 seq2) :
    ∀ (l : List FrameInfo) (i : ℕ), i + l.length = seq1.length →
      l = seq1.drop i →
    dtwOuterLoop seq2 l
      ((List.range (seq2.length + 1)).map (dtwMatrix seq1 seq2 i))
    = .ok ((List.range (seq2.length + 1)).map
        (dtwMatrix seq1 seq2 seq1.length)) := by
  intro l
  induction l with
  | nil =>
    intro i hlen _
    simp only [List.length_nil, Nat.add_zero] at hlen
    rw [hlen, dtwOuterLoop]
    rfl
  | cons f l' ih =>
    intro i hlen hdrop
    have hi : i < seq1.length := by simp at hlen; omega
    have hf : f = seq1.getD i ⟨[], 0⟩ := by
      have h1 : (seq1.drop i).head? = some f := by rw [← hdrop]; rfl
      rw [List.head?_drop, List.getElem?_eq_getElem hi] at h1
      rw [List.getD_eq_getElem _ _ hi]
      exact (Option.some_injective _ h1).symm
    have hhead : (((List.range (seq2.length + 1)).map
        (dtwMatrix seq1 seq2 i)).headD .inf) = dtwMatrix seq1 seq2 i 0 := by
      rw [List.range_succ_eq_map]
      simp
    have htail : (((List.range (seq2.length + 1)).map
        (dtwMatrix seq1 seq2 i)).tail) =
        ((List.range (seq2.length + 1)).map (dtwMatrix seq1 seq2 i)).drop 1 :=
      (List.drop_one _).symm
    rw [dtwOuterLoop, hf, hhead, htail]
    have hrow := dtwRowLoop_spec seq1 seq2 hOK i hi seq2.length 0 (by omega)
    rw [dtwMatrix_pos_zero] at hrow
    simp only [List.drop_zero, Nat.zero_add] at hrow
    simp only [List.zip] at hrow ⊢
    rw [hrow, except_ok_bind]
    have hnewrow : (JsNum.inf : JsNum) ::
        ((List.range' 1 seq2.length).map (dtwMatrix seq1 seq2 (i + 1))) =
        (List.range (seq2.length + 1)).map (dtwMatrix seq1 seq2 (i + 1)) := by
      rw [List.range_eq_range', List.range'_succ 0 seq2.length 1]
      simp [dtwMatrix_pos_zero]
    rw [hnewrow]
    refine ih (i + 1) (by simp at hlen ⊢; omega) ?_
    have h2 := congrArg List.tail hdrop
    simpa [List.tail_drop] using h2

lemma dtwMatrix_zero_row (seq1 seq2 : List FrameInfo) :
    ∀ (n s : ℕ), 1 ≤ s →
    (List.range' s n).map (dtwMatrix seq1 seq2 0) = List.replicate n .inf := by
  intro n
  induction n with
  | zero => intro s _; rfl
  | succ n ih =>
    intro s hs
    rw [List.range'_succ s n 1, List.map_cons, List.replicate_succ,
      ih (s + 1) (by omega)]
    obtain ⟨t, rfl⟩ : ∃ t, s = t + 1 := ⟨s - 1, by omega⟩
    rw [dtwMatrix_zero_pos]

lemma dtwInitRow (seq1 seq2 : List FrameInfo) :
    (JsNum.fin 0 : JsNum) :: List.replicate seq2.length .inf =
    (List.range (seq2.length + 1)).map (dtwMatrix seq1 seq2 0) := by
  rw [List.range_eq_range', List.range'_succ 0 seq2.length 1, List.map_cons,
    dtwMatrix_zero_row seq1 seq2 seq2.length (0 + 1) (by omega)]
  rw [show dtwMatrix seq1 seq2 0 0 = .fin 0 from by rw [dtwMatrix]]

lemma jsDiv_inf_nonneg (q : ℚ) (h : 0 ≤ q) : JsNum.div .inf (.fin q) = .inf := by
  simp [JsNum.div, h]

lemma dtwOuterLoop_nil_seq2 :
    ∀ (l : List FrameInfo) (row : List JsNum), l ≠ [] →
    dtwOuterLoop [] l row = .ok [.inf] := by
  intro l
  induction l with
  | nil => intro _ h; exact absurd rfl h
  | cons f l' ih =>
    intro row _
    rw [dtwOuterLoop]
    simp only [List.zip_nil_left, dtwRowLoop, except_ok_bind]
    by_cases hl : l' = []
    · subst hl; rfl
    · exact ih (.inf :: []) hl

lemma dtw_nil_nil : calculateSequenceSimilarityDTW [] [] = .ok .nan := by
  with_unfolding_all decide

lemma dtw_nil_cons (f : FrameInfo) (fs : List FrameInfo) :
    calculateSequenceSimilarityDTW [] (f :: fs) = .ok .ninf := by
  rw [calculateSequenceSimilarityDTW]
  simp only [dtwOuterLoop, except_pure_bind, List.length_nil, List.length_cons]
  have hget : ((JsNum.fin 0 : JsNum) ::
      List.replicate (fs.length + 1) .inf).getD (fs.length + 1) .nan = .inf := by
    rw [List.getD_cons_succ, List.getD_eq_getElem _ _ (by simp)]
    simp
  rw [hget, jsDiv_inf_nonneg _ (le_max_of_le_right (by positivity))]
  rfl

lemma dtw_cons_nil (f : FrameInfo) (fs : List FrameInfo) :
    calculateSequenceSimilarityDTW (f :: fs) [] = .ok .ninf := by
  rw [calculateSequenceSimilarityDTW,
    dtwOuterLoop_nil_seq2 (f :: fs) _ (by simp), except_ok_bind]
  simp only [List.length_nil, List.getD_cons_zero]
  rw [jsDiv_inf_nonneg _ (le_max_of_le_left (by positivity))]
  rfl

/-- Any DTW run with an empty side returns `-inf` or NaN. -/
lemma dtw_empty_cases (seq1 seq2 : List FrameInfo)
    (h : seq1 = [] ∨ seq2 = []) :
    calculateSequenceSimilarityDTW seq1 seq2 = .ok .ninf ∨
    calculateSequenceSimilarityDTW seq1 seq2 = .ok .nan := by
  rcases h with rfl | rfl
  · cases seq2 with
    | nil => exact Or.inr dtw_nil_nil
    | cons f fs => exact Or.inl (dtw_nil_cons f fs)
  · cases seq1 with
    | nil => exact Or.inr dtw_nil_nil
    | cons f fs => exact Or.inl (dtw_cons_nil f fs)

/-- C5 counterexample: the claim asserts the DTW similarity is 0 whenever
either input sequence is empty.  For an empty first sequence and a
one-frame second sequence the rolling row stays `[0, +inf]`, and the
result `1 - inf/1` is `-inf`, not 0. -/
theorem c5_counterexample_empty_not_zero :
    calculateSequenceSimilarityDTW [] [frameZero] = .ok .ninf ∧
    (JsNum.ninf : JsNum) ≠ .fin 0 := by
  constructor
  · with_unfolding_all decide
  · decide

/-- C5 amended: `calculateSequenceSimilarityDTW` does maintain the claimed
rolling cost row (position 0 starts at 0, the rest at `+inf`; each cell
becomes `cost + min(prev, row[j], row[j-1])`), and whenever every
frame-pair similarity computes without error the returned value is exactly
`1 - D(m, n) / max(m, n)` for the textbook DTW matrix `D` of that
recurrence.  The empty-input clause of the claim is corrected: with both
sequences empty the result is NaN (`0/0`), and with exactly one empty
sequence it is `-inf` (`1 - inf/max`), never 0. -/
theorem c5_amended_dtw_rolling_row :
    (∀ seq1 seq2 : List FrameInfo, DtwOk seq1 seq2 →
      calculateSequenceSimilarityDTW seq1 seq2 =
        .ok (JsNum.sub (.fin 1)
          (JsNum.div (dtwMatrix seq1 seq2 seq1.length seq2.length)
            (.fin (max seq1.length seq2.length))))) ∧
    calculateSequenceSimilarityDTW [] [] = .ok .nan ∧
    (∀ (f : FrameInfo) (fs : List FrameInfo),
      calculateSequenceSimilarityDTW [] (f :: fs) = .ok .ninf) ∧
    (∀ (f : FrameInfo) (fs : List FrameInfo),
      calculateSequenceSimilarityDTW (f :: fs) [] = .ok .ninf) := by
  refine ⟨?_, ?_, ?_, ?_⟩
  · intro seq1 seq2 hOK
    rw [calculateSequenceSimilarityDTW, dtwInitRow seq1 seq2,
      dtwOuterLoop_spec seq1 seq2 hOK seq1 0 (by omega) rfl, except_ok_bind]
    have hget : ((List.range (seq2.length + 1)).map
        (dtwMatrix seq1 seq2 seq1.length)).getD seq2.length .nan =
        dtwMatrix seq1 seq2 seq1.length seq2.length := by
      rw [List.getD_eq_getElem _ _ (by simp)]
      simp
    rw [hget]
    rfl
  · exact dtw_nil_nil
  · exact dtw_nil_cons
  · exact dtw_cons_nil

/-- C5 witness: the amended theorem applied to the one-frame sequences
`[frameZero]`, `[frameZero]`, discharging the no-error hypothesis. -/
theorem c5_amended_dtw_rolling_row_witness :
    calculateSequenceSimilarityDTW [frameZero] [frameZero] =
      .ok (JsNum.sub (.fin 1)
        (JsNum.div (dtwMatrix [frameZero] [frameZero] 1 1) (.fin (max 1 1)))) :=
  c5_amended_dtw_rolling_row.1 [frameZero] [frameZero]
    (by
      intro f1 h1 f2 h2
      simp only [List.mem_singleton] at h1 h2
      subst h1; subst h2
      exact ⟨.fin 1, by with_unfolding_all decide⟩)

/-! ### C6: media with an empty frame list -/

/-- With an empty side, every window of the video loop contributes `-inf`
or NaN, so the best similarity stays 0 or becomes NaN. -/
lemma videoWindowLoop_empty (cfg : SimilarityConfig) (shorter longer : MediaInfo)
    (W : ℚ) (h : shorter.frames = [] ∨ longer.frames = []) :
    ∀ (starts : List ℚ) (best : JsNum), best = .fin 0 ∨ best = .nan →
    videoWindowLoop cfg shorter longer W starts best = .ok (.fin 0) ∨
    videoWindowLoop cfg shorter longer W starts best = .ok .nan := by
  intro starts
  induction starts with
  | nil =>
    rintro best (rfl | rfl)
    · exact Or.inl rfl
    · exact Or.inr rfl
  | cons s rest ih =>
    intro best hbest
    have hdtw : calculateSequenceSimilarityDTW
        (getFramesInTimeRange longer s (s + W)) shorter.frames = .ok .ninf ∨
        calculateSequenceSimilarityDTW
        (getFramesInTimeRange longer s (s + W)) shorter.frames = .ok .nan := by
      apply dtw_empty_cases
      rcases h with he | he
      · exact Or.inr he
      · left
        rw [getFramesInTimeRange, he]
        rfl
    have hbest1 : ∀ w : JsNum, w = .ninf ∨ w = .nan →
        JsNum.max2 best w = .fin 0 ∨ JsNum.max2 best w = .nan := by
      rintro w (rfl | rfl) <;> rcases hbest with rfl | rfl <;> simp [JsNum.max2]
    rw [videoWindowLoop]
    rcases hdtw with hw | hw
    · rw [hw]
      simp only [except_ok_bind]
      have hb1 := hbest1 .ninf (Or.inl rfl)
      by_cases hge : (JsNum.ge (JsNum.max2 best .ninf)
          (.fin cfg.videoSimilarityThreshold)) = true
      · rw [if_pos hge]
        rcases hb1 with hb | hb <;> rw [hb]
        · exact Or.inl rfl
        · exact Or.inr rfl
      · rw [if_neg hge]
        exact ih _ hb1
    · rw [hw]
      simp only [except_ok_bind]
      have hb1 := hbest1 .nan (Or.inr rfl)
      by_cases hge : (JsNum.ge (JsNum.max2 best .nan)
          (.fin cfg.videoSimilarityThreshold)) = true
      · rw [if_pos hge]
        rcases hb1 with hb | hb <;> rw [hb]
        · exact Or.inl rfl
        · exact Or.inr rfl
      · rw [if_neg hge]
        exact ih _ hb1

/-- C6 counterexample: the claim asserts `calculateSimilarity` returns 0 in
every branch when one side has no frames.  In the image-image branch the
source reads `frames[0]` of the empty list and dereferences `undefined`,
throwing a TypeError instead of returning 0. -/
theorem c6_counterexample_image_branch_throws :
    calculateSimilarity cfgHalf ⟨0, []⟩ ⟨0, [frameZero]⟩ = .error .typeError ∧
    (Except.error .typeError : Except JsError JsNum) ≠ .ok (.fin 0) := by
  constructor
  · with_unfolding_all decide
  · decide

/-- C6 amended: for media with an empty frame list, only the image-video
branch returns 0.  The image-image branch throws a TypeError; the
video-video branch (for a positive step size, without which the source
loop would not terminate) returns 0 unless some window pairs two empty
sequences, in which case NaN — in particular it never returns a positive
similarity, so such a file still never joins a cluster. -/
theorem c6_amended_empty_frames (cfg : SimilarityConfig) (m1 m2 : MediaInfo)
    (h : m1.frames = [] ∨ m2.frames = []) :
    (m1.duration = 0 ∧ m2.duration = 0 →
      calculateSimilarity cfg m1 m2 = .error .typeError) ∧
    ((m1.duration = 0 ∨ m2.duration = 0) → ¬(m1.duration = 0 ∧ m2.duration = 0) →
      calculateSimilarity cfg m1 m2 = .ok (.fin 0)) ∧
    (m1.duration ≠ 0 → m2.duration ≠ 0 → 0 < cfg.stepSize →
      calculateSimilarity cfg m1 m2 = .ok (.fin 0) ∨
      calculateSimilarity cfg m1 m2 = .ok .nan) := by
  refine ⟨?_, ?_, ?_⟩
  · rintro ⟨h1, h2⟩
    rw [calculateSimilarity, if_pos ⟨h1, h2⟩]
    rcases h with he | he
    · rw [he]
      cases m2.frames <;> rfl
    · rw [he]
      cases m1.frames <;> rfl
  · intro hor hnotboth
    rw [calculateSimilarity, if_neg hnotboth, if_pos hor]
    by_cases hd1 : m1.duration = 0
    · rw [if_pos hd1, if_pos hd1, calculateImageVideoSimilarity]
      rcases h with he | he
      · rw [he]; rfl
      · cases hm : m1.frames with
        | nil => rfl
        | cons f fs => rw [he]; rfl
    · rw [if_neg hd1, if_neg hd1, calculateImageVideoSimilarity]
      rcases h with he | he
      · cases hm : m2.frames with
        | nil => rfl
        | cons f fs => rw [he]; rfl
      · rw [he]; rfl
  · intro hd1 hd2 _hstep
    rw [calculateSimilarity, if_neg (by tauto), if_neg (by tauto),
      calculateVideoSimilarity]
    by_cases hle : m1.duration ≤ m2.duration
    · rw [if_pos hle]
      exact videoWindowLoop_empty cfg m1 m2 m1.duration h _ (.fin 0) (Or.inl rfl)
    · rw [if_neg hle]
      exact videoWindowLoop_empty cfg m2 m1 m2.duration h.symm _ (.fin 0) (Or.inl rfl)

/-- C6 witness: the amended theorem applied to concrete media — a no-frame
image against a one-frame video yields 0, and a no-frame 3-second video
against a 5-second video with a single frame at t = 4 yields 0 or NaN. -/
theorem c6_amended_empty_frames_witness :
    calculateSimilarity cfgHalf ⟨0, []⟩ ⟨5, [frameZero]⟩ = .ok (.fin 0) ∧
    (calculateSimilarity cfgHalf ⟨3, []⟩ ⟨5, [⟨hashZero, 4⟩]⟩ = .ok (.fin 0) ∨
     calculateSimilarity cfgHalf ⟨3, []⟩ ⟨5, [⟨hashZero, 4⟩]⟩ = .ok .nan) :=
  ⟨(c6_amended_empty_frames cfgHalf ⟨0, []⟩ ⟨5, [frameZero]⟩ (Or.inl rfl)).2.1
      (Or.inl rfl) (by norm_num),
    (c6_amended_empty_frames cfgHalf ⟨3, []⟩ ⟨5, [⟨hashZero, 4⟩]⟩
      (Or.inl rfl)).2.2 (by norm_num) (by norm_num) (by norm_num [cfgHalf])⟩

/-! ### C9: cache lookup and invalidation -/

lemma cacheProcess_eq_hit {C R : Type} [DecidableEq C]
    (cfg : C) (key : String → String) (pf : String → R) (truthy : R → Bool)
    (st : CacheState C R) (path : String) (r : R)
    (hcv : isConfigValid cfg (st.config (key path)) = true)
    (hd : st.data (key path) = some r) (ht : truthy r = true) :
    cacheProcess cfg key pf truthy st path = ⟨r, st, false⟩ := by
  rw [cacheProcess]
  simp only [hcv, if_true, hd, ht, if_pos]

lemma cacheProcess_eq_miss {C R : Type} [DecidableEq C]
    (cfg : C) (key : String → String) (pf : String → R) (truthy : R → Bool)
    (st : CacheState C R) (path : String)
    (hmiss : ¬(isConfigValid cfg (st.config (key path)) = true ∧
      ∃ r, st.data (key path) = some r ∧ truthy r = true)) :
    cacheProcess cfg key pf truthy st path =
      ⟨pf path,
        ⟨fun k1 => if k1 = key path then some (pf path) else st.data k1,
         fun k1 => if k1 = key path then some cfg else st.config k1⟩,
        true⟩ := by
  rw [cacheProcess]
  by_cases hcv : isConfigValid cfg (st.config (key path)) = true
  · cases hd : st.data (key path) with
    | none => simp only [hcv, if_true, hd]
    | some r =>
      cases ht : truthy r with
      | true => exact absurd ⟨hcv, r, hd, ht⟩ hmiss
      | false => simp only [hcv, if_true, hd, ht, Bool.false_eq_true, if_false]
  · simp only [Bool.not_eq_true] at hcv
    simp only [hcv, Bool.false_eq_true, if_false]

/-- C9 cache state for the counterexample: key `"p"` holds the cached
value 0 (falsy in JavaScript) produced under config 5. -/
def cacheStateStale : CacheState ℕ ℕ :=
  ⟨fun k => if k = "p" then some 0 else none,
   fun k => if k = "p" then some 5 else none⟩

/-- C9 counterexample: the claim asserts `process` returns the stored
cached value as soon as a cached entry exists whose stored config equals
the current config.  With current config 5, the state `cacheStateStale`
stores exactly such an entry (value 0 under config 5), yet the source's
`if (cachedResult)` truthiness test rejects the falsy value 0 and
recomputes, returning 7. -/
theorem c9_counterexample_falsy_cached_value :
    (cacheProcess 5 id (fun _ => 7) (fun n => n != 0) cacheStateStale
      "p").recomputed = true ∧
    (cacheProcess 5 id (fun _ => 7) (fun n => n != 0) cacheStateStale
      "p").result = 7 ∧
    cacheStateStale.config "p" = some 5 ∧
    cacheStateStale.data "p" = some 0 := by
  refine ⟨?_, ?_, ?_, ?_⟩ <;> with_unfolding_all decide

/-- C9 amended: `process(path)` returns the stored cached value iff a
cached entry exists whose stored config equals the current config by value
and whose stored value is truthy; otherwise it recomputes via
`processFile` and stores both the new result and the current config, so a
subsequent lookup (with unchanged config, and provided the stored result
is truthy) is served from the cache.  In particular, after mutating any
config field (so that the stored config no longer equals it), the next
`process` recomputes. -/
theorem c9_amended_cache_hit_iff {C R : Type} [DecidableEq C]
    (cfg : C) (key : String → String) (pf : String → R) (truthy : R → Bool)
    (st : CacheState C R) (path : String) :
    ((cacheProcess cfg key pf truthy st path).recomputed = false ↔
      (isConfigValid cfg (st.config (key path)) = true ∧
       ∃ r, st.data (key path) = some r ∧ truthy r = true)) ∧
    ((cacheProcess cfg key pf truthy st path).recomputed = false →
      st.data (key path) =
        some (cacheProcess cfg key pf truthy st path).result ∧
      (cacheProcess cfg key pf truthy st path).state = st) ∧
    ((cacheProcess cfg key pf truthy st path).recomputed = true →
      (cacheProcess cfg key pf truthy st path).result = pf path ∧
      (cacheProcess cfg key pf truthy st path).state.data (key path) =
        some (pf path) ∧
      (cacheProcess cfg key pf truthy st path).state.config (key path) =
        some cfg ∧
      (truthy (pf path) = true →
        (cacheProcess cfg key pf truthy
          (cacheProcess cfg key pf truthy st path).state path).recomputed =
            false ∧
        (cacheProcess cfg key pf truthy
          (cacheProcess cfg key pf truthy st path).state path).result =
            pf path)) := by
  by_cases hhit : isConfigValid cfg (st.config (key path)) = true ∧
      ∃ r, st.data (key path) = some r ∧ truthy r = true
  · obtain ⟨hcv, r, hd, ht⟩ := hhit
    rw [cacheProcess_eq_hit cfg key pf truthy st path r hcv hd ht]
    refine ⟨?_, ?_, ?_⟩
    · simp only [true_iff]
      exact ⟨hcv, r, hd, ht⟩
    · intro _
      exact ⟨hd, rfl⟩
    · intro hco
      cases hco
  · rw [cacheProcess_eq_miss cfg key pf truthy st path hhit]
    refine ⟨?_, ?_, ?_⟩
    · simp only [Bool.true_eq_false, false_iff]
      exact hhit
    · intro hco
      cases hco
    · intro _
      refine ⟨rfl, by simp, by simp, ?_⟩
      intro htr
      rw [cacheProcess_eq_hit cfg key pf truthy _ path (pf path)
        (by simp [isConfigValid]) (by simp) htr]
      exact ⟨rfl, rfl⟩

/-- C9 witness: the amended theorem applied at a concrete store — a miss
under config 6 (the stale entry was written under config 5) recomputes,
stores value and config, and the immediate second lookup is a cache hit
returning the same value. -/
theorem c9_amended_cache_hit_iff_witness :
    (cacheProcess 6 id (fun _ => 7) (fun n => n != 0) cacheStateStale
      "p").result = 7 ∧
    (cacheProcess 6 id (fun _ => 7) (fun n => n != 0)
      (cacheProcess 6 id (fun _ => 7) (fun n => n != 0) cacheStateStale
        "p").state "p").recomputed = false := by
  have h := c9_amended_cache_hit_iff 6 id (fun _ : String => (7 : ℕ))
    (fun n => n != 0) cacheStateStale "p"
  have hrec : (cacheProcess 6 id (fun _ => 7) (fun n => n != 0) cacheStateStale
      "p").recomputed = true := by
    with_unfolding_all decide
  obtain ⟨hres, _, _, hnext⟩ := h.2.2 hrec
  exact ⟨hres, (hnext (by with_unfolding_all decide)).1⟩

/-! ### C10 / C2 / C3: DBSCAN loop invariants -/

/-- Union of a list of clusters. -/
def clustersUnion (cs : List (Finset String)) : Finset String :=
  cs.foldr (· ∪ ·) ∅

lemma mem_clustersUnion {x : String} :
    ∀ {cs : List (Finset String)}, x ∈ clustersUnion cs ↔ ∃ c ∈ cs, x ∈ c := by
  intro cs
  induction cs with
  | nil => simp [clustersUnion]
  | cons c cs ih => simp [clustersUnion, Finset.mem_union, ih.symm]

lemma getValidNeighbors_subset_points (env : Env) (t : VPTreeModel)
    (p : String) (eps : ℚ) :
    ∀ x ∈ getValidNeighbors env t p eps, x ∈ t.points := by
  intro x hx
  simp only [getValidNeighbors, List.mem_map, List.mem_filter] at hx
  obtain ⟨r, ⟨hr, -⟩, rfl⟩ := hx
  simp only [VPTreeModel.search, List.mem_filter, Bool.and_eq_true,
    decide_eq_true_eq] at hr
  exact hr.2.1

/-- The expansion loop only grows `visited` and `cluster`, by the same set
of fresh points, and those points are tree points. -/
lemma expandLoop_spec (env : Env) (t : VPTreeModel) (eps : ℚ) :
    ∀ (fuel : ℕ) (stack : List String) (visited cluster : Finset String),
    (∀ x ∈ stack, x ∈ t.points) →
    ∃ s : Finset String,
      expandLoop env t eps fuel stack visited cluster =
        (visited ∪ s, cluster ∪ s) ∧
      Disjoint s visited ∧ ↑s ⊆ {x : String | x ∈ t.points} := by
  intro fuel
  induction fuel with
  | zero =>
    intro stack visited cluster _
    exact ⟨∅, by simp [expandLoop], by simp, by simp⟩
  | succ fuel ih =>
    intro stack visited cluster hstack
    cases stack with
    | nil => exact ⟨∅, by simp [expandLoop], by simp, by simp⟩
    | cons current rest =>
      rw [expandLoop]
      by_cases hv : current ∈ visited
      · rw [if_pos hv]
        exact ih rest visited cluster (fun x hx => hstack x (by simp [hx]))
      · rw [if_neg hv]
        have hcur : current ∈ t.points := hstack current (by simp)
        by_cases hlen : 2 ≤ (getValidNeighbors env t current eps).length
        · rw [if_pos hlen]
          obtain ⟨s, heq, hdisj, hsub⟩ := ih
            (((getValidNeighbors env t current eps).filter
              (fun n => decide (n ∉ insert current visited))).reverse ++ rest)
            (insert current visited) (insert current cluster)
            (by
              intro x hx
              rcases List.mem_append.1 hx with h | h
              · exact getValidNeighbors_subset_points env t current eps x
                  (List.mem_filter.1 (List.mem_reverse.1 h)).1
              · exact hstack x (by simp [h]))
          refine ⟨insert current s, ?_, ?_, ?_⟩
          · rw [heq]
            simp only [Finset.union_insert, Finset.insert_union]
          · rw [Finset.disjoint_insert_left]
            exact ⟨hv, Finset.disjoint_of_subset_right
              (Finset.subset_insert _ _) hdisj⟩
          · intro x hx
            rcases Finset.mem_insert.1 hx with rfl | hx
            · exact hcur
            · exact hsub hx
        · rw [if_neg hlen]
          obtain ⟨s, heq, hdisj, hsub⟩ := ih rest (insert current visited)
            (insert current cluster) (fun x hx => hstack x (by simp [hx]))
          refine ⟨insert current s, ?_, ?_, ?_⟩
          · rw [heq]
            simp only [Finset.union_insert, Finset.insert_union]
          · rw [Finset.disjoint_insert_left]
            exact ⟨hv, Finset.disjoint_of_subset_right
              (Finset.subset_insert _ _) hdisj⟩
          · intro x hx
            rcases Finset.mem_insert.1 hx with rfl | hx
            · exact hcur
            · exact hsub hx

/-- Scan-loop invariant: clusters stay pairwise disjoint, their union is
exactly the visited set, and every scanned point ends up visited; the
visited set stays inside `visited ∪ chunk ∪ points`. -/
lemma scanLoop_spec (env : Env) (t : VPTreeModel) (eps : ℚ) :
    ∀ (rest : List String) (visited : Finset String)
      (clusters : List (Finset String)),
    clusters.Pairwise Disjoint → clustersUnion clusters = visited →
    (scanLoop env t eps rest visited clusters).Pairwise Disjoint ∧
    visited ⊆ clustersUnion (scanLoop env t eps rest visited clusters) ∧
    (∀ p ∈ rest, p ∈ clustersUnion (scanLoop env t eps rest visited clusters)) ∧
    ↑(clustersUnion (scanLoop env t eps rest visited clusters)) ⊆
      {x : String | x ∈ visited ∨ x ∈ rest ∨ x ∈ t.points} := by
  intro rest
  induction rest with
  | nil =>
    intro visited clusters hpw huni
    rw [scanLoop]
    refine ⟨hpw, by rw [huni], by simp, by rw [huni]; intro x hx; exact Or.inl hx⟩
  | cons point rest ih =>
    intro visited clusters hpw huni
    rw [scanLoop]
    by_cases hv : point ∈ visited
    · rw [if_pos hv]
      obtain ⟨h1, h2, h3, h4⟩ := ih visited clusters hpw huni
      refine ⟨h1, h2, ?_, ?_⟩
      · intro p hp
        rcases List.mem_cons.1 hp with rfl | hp
        · exact h2 hv
        · exact h3 p hp
      · intro x hx
        rcases h4 hx with h | h | h
        · exact Or.inl h
        · exact Or.inr (Or.inl (by simp [h]))
        · exact Or.inr (Or.inr h)
    · rw [if_neg hv]
      by_cases hlen : (getValidNeighbors env t point eps).length < 2
      · rw [if_pos hlen]
        have hpw1 : (clusters ++ [{point}]).Pairwise Disjoint := by
          rw [List.pairwise_append]
          refine ⟨hpw, by simp, ?_⟩
          intro c hc c' hc'
          simp only [List.mem_singleton] at hc'
          subst hc'
          rw [Finset.disjoint_singleton_right]
          intro hpc
          exact hv (huni ▸ mem_clustersUnion.2 ⟨c, hc, hpc⟩)
        have huni1 : clustersUnion (clusters ++ [{point}]) =
            insert point visited := by
          ext x
          simp only [mem_clustersUnion, List.mem_append, List.mem_singleton,
            Finset.mem_insert]
          constructor
          · rintro ⟨c, hc | rfl, hxc⟩
            · exact Or.inr (huni ▸ mem_clustersUnion.2 ⟨c, hc, hxc⟩)
            · simp only [Finset.mem_singleton] at hxc
              exact Or.inl hxc
          · rintro (rfl | hx)
            · exact ⟨{x}, Or.inr rfl, by simp⟩
            · obtain ⟨c, hc, hxc⟩ := mem_clustersUnion.1 (huni ▸ hx)
              exact ⟨c, Or.inl hc, hxc⟩
        obtain ⟨h1, h2, h3, h4⟩ := ih (insert point visited) _ hpw1 huni1
        refine ⟨h1, fun x hx => h2 (by simp [hx]), ?_, ?_⟩
        · intro p hp
          rcases List.mem_cons.1 hp with rfl | hp
          · exact h2 (by simp)
          · exact h3 p hp
        · intro x hx
          rcases h4 hx with h | h | h
          · rcases Finset.mem_insert.1 h with rfl | h
            · exact Or.inr (Or.inl (by simp))
            · exact Or.inl h
          · exact Or.inr (Or.inl (by simp [h]))
          · exact Or.inr (Or.inr h)
      · rw [if_neg hlen]
        obtain ⟨s, heq, hdisj, hsub⟩ := expandLoop_spec env t eps
          (dbscanFuel env t eps + (getValidNeighbors env t point eps).length)
          (getValidNeighbors env t point eps).reverse
          (insert point visited) {point}
          (fun x hx => getValidNeighbors_subset_points env t point eps x
            (List.mem_reverse.1 hx))
        rw [heq]
        have hpnotins : point ∉ s :=
          fun hps => (Finset.disjoint_left.1 hdisj) hps (by simp)
        have hsv : Disjoint s visited :=
          Finset.disjoint_of_subset_right (Finset.subset_insert _ _) hdisj
        have hpw1 : (clusters ++ [{point} ∪ s]).Pairwise Disjoint := by
          rw [List.pairwise_append]
          refine ⟨hpw, by simp, ?_⟩
          intro c hc c' hc'
          simp only [List.mem_singleton] at hc'
          subst hc'
          rw [Finset.disjoint_union_right, Finset.disjoint_singleton_right]
          have hcv : c ⊆ visited := fun y hy =>
            huni ▸ mem_clustersUnion.2 ⟨c, hc, hy⟩
          refine ⟨fun hpc => hv (hcv hpc), ?_⟩
          exact Finset.disjoint_of_subset_left hcv hsv.symm
        have huni1 : clustersUnion (clusters ++ [{point} ∪ s]) =
            (insert point visited) ∪ s := by
          ext x
          simp only [mem_clustersUnion, List.mem_append, List.mem_singleton,
            Finset.mem_union, Finset.mem_insert]
          constructor
          · rintro ⟨c, hc | rfl, hxc⟩
            · exact Or.inl (Or.inr (huni ▸ mem_clustersUnion.2 ⟨c, hc, hxc⟩))
            · rcases Finset.mem_union.1 hxc with hx | hx
              · simp only [Finset.mem_singleton] at hx
                exact Or.inl (Or.inl hx)
              · exact Or.inr hx
          · rintro ((rfl | hx) | hx)
            · exact ⟨{x} ∪ s, Or.inr rfl, by simp⟩
            · obtain ⟨c, hc, hxc⟩ := mem_clustersUnion.1 (huni ▸ hx)
              exact ⟨c, Or.inl hc, hxc⟩
            · exact ⟨{point} ∪ s, Or.inr rfl, by simp [hx]⟩
        obtain ⟨h1, h2, h3, h4⟩ := ih ((insert point visited) ∪ s) _ hpw1 huni1
        refine ⟨h1, fun x hx => h2 (by simp [hx]), ?_, ?_⟩
        · intro p hp
          rcases List.mem_cons.1 hp with rfl | hp
          · exact h2 (by simp)
          · exact h3 p hp
        · intro x hx
          rcases h4 hx with h | h | h
          · rcases Finset.mem_union.1 h with h' | h'
            · rcases Finset.mem_insert.1 h' with rfl | h'
              · exact Or.inr (Or.inl (by simp))
              · exact Or.inl h'
            · exact Or.inr (Or.inr (hsub h'))
          · exact Or.inr (Or.inl (by simp [h]))
          · exact Or.inr (Or.inr h)

/-- C10: the clusters a single `workerDBSCAN` call returns are pairwise
disjoint, and every point of the chunk lies in at least one of them (and
hence, by disjointness, in exactly one); clusters may also contain points
outside the chunk reached by expansion, but never points outside
`chunk ∪ tree`. -/
theorem c10_workerDBSCAN_partitions_chunk (env : Env) (t : VPTreeModel)
    (chunk : List String) :
    (workerDBSCAN env t chunk).Pairwise Disjoint ∧
    (∀ p ∈ chunk, ∃ c ∈ workerDBSCAN env t chunk, p ∈ c) ∧
    (∀ c ∈ workerDBSCAN env t chunk, ∀ x ∈ c, x ∈ chunk ∨ x ∈ t.points) := by
  obtain ⟨h1, -, h3, h4⟩ := scanLoop_spec env t (dedupEps env.cfg) chunk ∅ []
    (by simp) (by simp [clustersUnion])
  refine ⟨h1, ?_, ?_⟩
  · intro p hp
    exact mem_clustersUnion.1 (h3 p hp)
  · intro c hc x hx
    have := h4 (mem_clustersUnion.2 ⟨c, hc, hx⟩)
    simpa using this

/-- C10 witness: the theorem applied to a concrete three-point run — the
clusters are disjoint and each chunk point is covered. -/
theorem c10_workerDBSCAN_partitions_chunk_witness :
    ∃ c ∈ workerDBSCAN
      ⟨cfgHalf, fun _ => ⟨⟨0, [frameZero]⟩, ⟨false, none, none⟩⟩,
        fun _ => ⟨⟨0, [frameZero]⟩, ⟨false, none, none⟩⟩, fun _ => 0,
        fun q _ => [⟨q, 0⟩]⟩
      ⟨["a", "b"], fun q _ => [⟨q, 0⟩]⟩ ["a", "b"], "a" ∈ c :=
  (c10_workerDBSCAN_partitions_chunk _ _ _).2.1 "a" (by simp)

/-! ### C2: DBSCAN parameters and neighbor validation -/

lemma mem_getValidNeighbors (env : Env) (t : VPTreeModel) (p : String)
    (eps : ℚ) (q : String) :
    q ∈ getValidNeighbors env t p eps ↔
    ∃ r ∈ t.search p eps, r.point = q ∧
      (q = p ∨ getAdaptiveThreshold env.cfg (env.processFile p).media
        (env.processFile q).media ≤ 1 - r.distance) := by
  simp only [getValidNeighbors, List.mem_map, List.mem_filter,
    Bool.or_eq_true, decide_eq_true_eq]
  constructor
  · rintro ⟨r, ⟨hr, hcond⟩, rfl⟩
    exact ⟨r, hr, rfl, hcond⟩
  · rintro ⟨r, hr, rfl, hcond⟩
    exact ⟨r, ⟨hr, hcond⟩, rfl⟩

lemma expandLoop_not_mem (env : Env) (t : VPTreeModel) (eps : ℚ) (p : String)
    (hnot : ∀ q, q ≠ p → p ∉ getValidNeighbors env t q eps) :
    ∀ (fuel : ℕ) (stack : List String) (visited cluster : Finset String),
    p ∉ stack → p ∉ visited → p ∉ cluster →
    p ∉ (expandLoop env t eps fuel stack visited cluster).1 ∧
    p ∉ (expandLoop env t eps fuel stack visited cluster).2 := by
  intro fuel
  induction fuel with
  | zero => intro stack visited cluster _ hv hc; exact ⟨hv, hc⟩
  | succ fuel ih =>
    intro stack visited cluster hs hv hc
    cases stack with
    | nil => exact ⟨hv, hc⟩
    | cons current rest =>
      have hcp : current ≠ p := fun h => hs (h ▸ List.mem_cons_self _ _)
      have hrest : p ∉ rest := fun h => hs (List.mem_cons_of_mem _ h)
      rw [expandLoop]
      by_cases hcur : current ∈ visited
      · rw [if_pos hcur]
        exact ih rest visited cluster hrest hv hc
      · rw [if_neg hcur]
        have hv1 : p ∉ insert current visited := by
          simp only [Finset.mem_insert]
          rintro (rfl | h)
          · exact hcp rfl
          · exact hv h
        have hc1 : p ∉ insert current cluster := by
          simp only [Finset.mem_insert]
          rintro (rfl | h)
          · exact hcp rfl
          · exact hc h
        by_cases hlen : 2 ≤ (getValidNeighbors env t current eps).length
        · rw [if_pos hlen]
          refine ih _ _ _ ?_ hv1 hc1
          intro hp
          rcases List.mem_append.1 hp with h | h
          · exact hnot current hcp
              (List.mem_filter.1 (List.mem_reverse.1 h)).1
          · exact hrest h
        · rw [if_neg hlen]
          exact ih rest _ _ hrest hv1 hc1

lemma scanLoop_mono (env : Env) (t : VPTreeModel) (eps : ℚ) :
    ∀ (rest : List String) (visited : Finset String)
      (clusters : List (Finset String)) (c : Finset String),
    c ∈ clusters → c ∈ scanLoop env t eps rest visited clusters := by
  intro rest
  induction rest with
  | nil => intro visited clusters c hc; rw [scanLoop]; exact hc
  | cons point rest ih =>
    intro visited clusters c hc
    rw [scanLoop]
    by_cases hv : point ∈ visited
    · rw [if_pos hv]; exact ih _ _ _ hc
    · rw [if_neg hv]
      by_cases hlen : (getValidNeighbors env t point eps).length < 2
      · rw [if_pos hlen]
        exact ih _ _ _ (List.mem_append.2 (Or.inl hc))
      · rw [if_neg hlen]
        exact ih _ _ _ (List.mem_append.2 (Or.inl hc))

lemma scanLoop_lonely (env : Env) (t : VPTreeModel) (eps : ℚ) (p : String)
    (hnot : ∀ q, q ≠ p → p ∉ getValidNeighbors env t q eps)
    (hlen : (getValidNeighbors env t p eps).length < 2) :
    ∀ (rest : List String) (visited : Finset String)
      (clusters : List (Finset String)),
    p ∉ visited → p ∈ rest →
    {p} ∈ scanLoop env t eps rest visited clusters := by
  intro rest
  induction rest with
  | nil => intro visited clusters _ hp; cases hp
  | cons x rest ih =>
    intro visited clusters hpv hp
    rw [scanLoop]
    by_cases hv : x ∈ visited
    · rw [if_pos hv]
      have hxp : p ≠ x := fun h => hpv (h ▸ hv)
      exact ih visited clusters hpv
        (by rcases List.mem_cons.1 hp with h | h; exact absurd h hxp; exact h)
    · rw [if_neg hv]
      by_cases hxp : x = p
      · subst hxp
        rw [if_pos hlen]
        exact scanLoop_mono env t eps rest _ _ _
          (List.mem_append.2 (Or.inr (by simp)))
      · have hprest : p ∈ rest := by
          rcases List.mem_cons.1 hp with h | h
          · exact absurd h.symm hxp
          · exact h
        by_cases hxlen : (getValidNeighbors env t x eps).length < 2
        · rw [if_pos hxlen]
          refine ih _ _ ?_ hprest
          simp only [Finset.mem_insert]
          rintro (rfl | h)
          · exact hxp rfl
          · exact hpv h
        · rw [if_neg hxlen]
          have hnm := expandLoop_not_mem env t eps p hnot
            (dbscanFuel env t eps + (getValidNeighbors env t x eps).length)
            (getValidNeighbors env t x eps).reverse (insert x visited) {x}
            (fun h => hnot x hxp (List.mem_reverse.1 h))
            (by
              simp only [Finset.mem_insert]
              rintro (rfl | h)
              · exact hxp rfl
              · exact hpv h)
            (fun hmem => hxp (Finset.mem_singleton.1 hmem).symm)
          exact ih _ _ hnm.1 hprest

/-- C2: `workerDBSCAN` clusters with `minPts = 2` and
`eps = 1 - min(imageSimilarityThreshold, imageVideoSimilarityThreshold,
videoSimilarityThreshold)`; a tree-search neighbor is kept iff it is the
query point itself or its similarity `1 - distance` reaches the adaptive
threshold of the pair's media kinds; and a chunk point whose validated
neighborhood has fewer than 2 members becomes a singleton cluster (the
last part under the documented assumptions on the search: the point lists
itself as a neighbor, and validated neighborhood membership is symmetric). -/
theorem c2_dbscan_parameters_and_neighbor_validation :
    (∀ cfg : SimilarityConfig, dedupEps cfg =
      1 - min (min cfg.imageSimilarityThreshold
        cfg.imageVideoSimilarityThreshold) cfg.videoSimilarityThreshold) ∧
    (∀ (env : Env) (t : VPTreeModel) (p : String) (eps : ℚ) (q : String),
      q ∈ getValidNeighbors env t p eps ↔
      ∃ r ∈ t.search p eps, r.point = q ∧
        (q = p ∨ getAdaptiveThreshold env.cfg (env.processFile p).media
          (env.processFile q).media ≤ 1 - r.distance)) ∧
    (∀ (env : Env) (t : VPTreeModel) (chunk : List String) (p : String),
      p ∈ chunk →
      p ∈ getValidNeighbors env t p (dedupEps env.cfg) →
      (∀ q, p ∈ getValidNeighbors env t q (dedupEps env.cfg) →
        q ∈ getValidNeighbors env t p (dedupEps env.cfg)) →
      (getValidNeighbors env t p (dedupEps env.cfg)).length < 2 →
      {p} ∈ workerDBSCAN env t chunk) := by
  refine ⟨fun cfg => rfl, mem_getValidNeighbors, ?_⟩
  intro env t chunk p hchunk hself hsym hlen
  have hnot : ∀ q, q ≠ p →
      p ∉ getValidNeighbors env t q (dedupEps env.cfg) := by
    intro q hqp hpin
    have hq := hsym q hpin
    have hsubset : ({p, q} : Finset String) ⊆
        (getValidNeighbors env t p (dedupEps env.cfg)).toFinset := by
      intro x hx
      rcases Finset.mem_insert.1 hx with rfl | hx
      · exact List.mem_toFinset.2 hself
      · rw [Finset.mem_singleton] at hx
        subst hx
        exact List.mem_toFinset.2 hq
    have hcard : ({p, q} : Finset String).card = 2 := by
      rw [Finset.card_insert_of_not_mem
        (fun hm => hqp (Finset.mem_singleton.1 hm).symm),
        Finset.card_singleton]
    have h1 := Finset.card_le_card hsubset
    have h2 := (getValidNeighbors env t p (dedupEps env.cfg)).toFinset_card_le
    omega
  exact scanLoop_lonely env t (dedupEps env.cfg) p hnot hlen chunk ∅ []
    (by simp) hchunk

/-- C2 witness: a one-point tree whose oracle reports each query at
distance 0 from itself; the point has a single validated neighbor (itself)
and duly forms the singleton cluster. -/
theorem c2_dbscan_parameters_witness :
    ({"a"} : Finset String) ∈ workerDBSCAN
      ⟨cfgHalf, fun _ => ⟨⟨0, [frameZero]⟩, ⟨false, none, none⟩⟩,
        fun _ => ⟨⟨0, [frameZero]⟩, ⟨false, none, none⟩⟩, fun _ => 0,
        fun q _ => [⟨q, 0⟩]⟩
      ⟨["a"], fun q _ => [⟨q, 0⟩]⟩ ["a"] := by
  refine c2_dbscan_parameters_and_neighbor_validation.2.2 _ _ ["a"] "a"
    (by simp) ?_ ?_ ?_
  · with_unfolding_all decide
  · intro q hq
    by_cases hqa : q = "a"
    · subst hqa
      exact hq
    · exfalso
      obtain ⟨r, hr, hpt, -⟩ := (mem_getValidNeighbors _ _ _ _ _).1 hq
      simp only [VPTreeModel.search] at hr
      have hrmem := List.mem_of_mem_filter hr
      simp only [List.mem_singleton] at hrmem
      subst hrmem
      exact hqa hpt
  · with_unfolding_all decide

/-! ### C4: representative selection invariants -/

lemma insertDesc_perm (key : String → ℚ) (x : String) :
    ∀ l : List String, List.Perm (insertDesc key x l) (x :: l) := by
  intro l
  induction l with
  | nil => rfl
  | cons y ys ih =>
    rw [insertDesc]
    by_cases h : key y ≤ key x
    · rw [if_pos h]
    · rw [if_neg h]
      exact (ih.cons y).trans (List.Perm.swap x y ys)

lemma sortByKeyDesc_perm (key : String → ℚ) :
    ∀ l : List String, List.Perm (sortByKeyDesc key l) l := by
  intro l
  induction l with
  | nil => rfl
  | cons x xs ih =>
    rw [sortByKeyDesc]
    exact (insertDesc_perm key x _).trans (ih.cons x)

lemma sortByKeyDesc_head_max (key : String → ℚ) :
    ∀ (l : List String) (x : String), x ∈ l →
    key x ≤ key ((sortByKeyDesc key l).headD "") := by
  intro l
  induction l with
  | nil => intro x hx; cases hx
  | cons a l' ih =>
    intro x hx
    rw [sortByKeyDesc]
    cases hs : sortByKeyDesc key l' with
    | nil =>
      have hl' : l' = [] := ((hs ▸ sortByKeyDesc_perm key l' :
        List.Perm [] l')).symm.eq_nil
      subst hl'
      simp only [List.mem_singleton] at hx
      subst hx
      simp [insertDesc]
    | cons b bs =>
      rw [insertDesc]
      by_cases h : key b ≤ key a
      · rw [if_pos h]
        simp only [List.headD_cons]
        rcases List.mem_cons.1 hx with rfl | hx
        · exact le_refl _
        · exact le_trans (by simpa [hs] using ih x hx) h
      · rw [if_neg h]
        simp only [List.headD_cons]
        rcases List.mem_cons.1 hx with rfl | hx
        · exact le_of_lt (lt_of_not_le h)
        · simpa [hs] using ih x hx

lemma headD_mem {l : List String} (h : l ≠ []) (d : String) : l.headD d ∈ l := by
  cases l with
  | nil => exact absurd rfl h
  | cons a t => simp

lemma handleMultiFrameBestWith_subset (env : Env)
    (cb : List String → DeduplicationResult)
    (hcb : ∀ fs, (cb fs).uniqueFiles ⊆ fs.toFinset)
    (sorted : List String) (hne : sorted ≠ []) :
    ∀ x ∈ handleMultiFrameBestWith env cb sorted, x ∈ sorted := by
  intro x hx
  rw [handleMultiFrameBestWith] at hx
  rcases List.mem_cons.1 hx with rfl | hx
  · exact headD_mem hne ""
  · by_cases hpc : (sorted.filter (fun e =>
        decide ((env.selector e).media.duration = 0) &&
        JsNum.ge (getQuality (env.selector e))
          (getQuality (env.selector (sorted.headD ""))) &&
        (!(env.selector (sorted.headD "")).metadata.imageDate ||
          (env.selector e).metadata.imageDate))).isEmpty
    · rw [if_pos hpc] at hx
      cases hx
    · rw [if_neg hpc] at hx
      rw [finsetToList, Finset.mem_sort] at hx
      have := hcb _ hx
      rw [List.mem_toFinset] at this
      exact List.mem_of_mem_filter this

lemma selectRepresentativesWith_subset (env : Env)
    (cb : List String → DeduplicationResult)
    (hcb : ∀ fs, (cb fs).uniqueFiles ⊆ fs.toFinset)
    (cluster : List String) :
    ∀ x ∈ selectRepresentativesWith env cb cluster, x ∈ cluster := by
  intro x hx
  rw [selectRepresentativesWith] at hx
  by_cases hlen : cluster.length ≤ 1
  · rw [if_pos hlen] at hx
    exact hx
  · rw [if_neg hlen] at hx
    have hperm := sortByKeyDesc_perm (fun e => env.score (env.selector e)) cluster
    have hne : sortByKeyDesc (fun e => env.score (env.selector e)) cluster ≠ [] := by
      intro h
      rw [((h ▸ hperm : List.Perm [] cluster)).symm.eq_nil] at hlen
      exact hlen (by simp)
    by_cases hd : (env.selector ((sortByKeyDesc
        (fun e => env.score (env.selector e)) cluster).headD "")).media.duration = 0
    · rw [if_pos hd] at hx
      simp only [List.mem_singleton] at hx
      subst hx
      exact hperm.mem_iff.1 (headD_mem hne "")
    · rw [if_neg hd] at hx
      exact hperm.mem_iff.1
        (handleMultiFrameBestWith_subset env cb hcb _ hne x hx)

lemma selectRepresentativesWith_ne_nil (env : Env)
    (cb : List String → DeduplicationResult)
    (cluster : List String) (h : cluster ≠ []) :
    selectRepresentativesWith env cb cluster ≠ [] := by
  rw [selectRepresentativesWith]
  by_cases hlen : cluster.length ≤ 1
  · rw [if_pos hlen]; exact h
  · rw [if_neg hlen]
    by_cases hd : (env.selector ((sortByKeyDesc
        (fun e => env.score (env.selector e)) cluster).headD "")).media.duration = 0
    · rw [if_pos hd]; simp
    · rw [if_neg hd]; rw [handleMultiFrameBestWith]; simp

lemma selectRepresentativesWith_headD (env : Env)
    (cb : List String → DeduplicationResult)
    (cluster : List String) (hlen : ¬ cluster.length ≤ 1) :
    (selectRepresentativesWith env cb cluster).headD "" =
    (sortByKeyDesc (fun e => env.score (env.selector e)) cluster).headD "" := by
  rw [selectRepresentativesWith, if_neg hlen]
  by_cases hd : (env.selector ((sortByKeyDesc
      (fun e => env.score (env.selector e)) cluster).headD "")).media.duration = 0
  · rw [if_pos hd]; rfl
  · rw [if_neg hd]; rw [handleMultiFrameBestWith]; rfl

/-- The per-duplicate-set invariant of C4. -/
def DupSetOk (env : Env) (d : DupSet) : Prop :=
  d.bestFile ∈ d.representatives ∧
  Disjoint d.representatives d.duplicates ∧
  ∀ x ∈ d.representatives ∪ d.duplicates,
    env.score (env.selector x) ≤ env.score (env.selector d.bestFile)

lemma processResultsStep_card_one (env : Env)
    (cb : List String → DeduplicationResult)
    (acc : Finset String × List DupSet) (c : Finset String)
    (h : c.card = 1) :
    processResultsStep env cb acc c = (acc.1 ∪ c, acc.2) := by
  rw [processResultsStep, if_pos h]

lemma processResultsStep_big (env : Env)
    (cb : List String → DeduplicationResult)
    (acc : Finset String × List DupSet) (c : Finset String)
    (h : ¬ c.card = 1) :
    processResultsStep env cb acc c =
      (acc.1, acc.2 ++
        [⟨(selectRepresentativesWith env cb (finsetToList c)).headD "",
          (selectRepresentativesWith env cb (finsetToList c)).toFinset,
          ((finsetToList c).filter (fun f => decide
            (f ∉ (selectRepresentativesWith env cb (finsetToList c)).toFinset))).toFinset⟩]) := by
  rw [processResultsStep, if_neg h]

lemma processResultsStep_dupset (env : Env)
    (cb : List String → DeduplicationResult)
    (hcb : ∀ fs, (cb fs).uniqueFiles ⊆ fs.toFinset)
    (c : Finset String) (hc : c.Nonempty) (hcard : ¬ c.card = 1)
    (acc : Finset String × List DupSet) (hacc : ∀ d ∈ acc.2, DupSetOk env d) :
    ∀ d ∈ (processResultsStep env cb acc c).2, DupSetOk env d := by
  intro d hd
  rw [processResultsStep_big env cb acc c hcard] at hd
  simp only [List.mem_append, List.mem_singleton] at hd
  rcases hd with hd | rfl
  · exact hacc d hd
  · have hclen : 2 ≤ (finsetToList c).length := by
      rw [finsetToList, Finset.length_sort]
      have h0 : c.card ≠ 0 := by
        simpa [Finset.card_eq_zero] using Finset.nonempty_iff_ne_empty.1 hc
      omega
    have hlnot : ¬ (finsetToList c).length ≤ 1 := by omega
    have hne : finsetToList c ≠ [] := by
      intro h
      rw [h] at hclen
      simp at hclen
    have hrne := selectRepresentativesWith_ne_nil env cb (finsetToList c) hne
    refine ⟨?_, ?_, ?_⟩
    · exact List.mem_toFinset.2 (headD_mem hrne "")
    · rw [Finset.disjoint_left]
      intro x hx hx'
      rw [List.mem_toFinset, List.mem_filter, decide_eq_true_eq] at hx'
      exact hx'.2 hx
    · intro x hx
      have hxc : x ∈ finsetToList c := by
        rcases Finset.mem_union.1 hx with hx | hx
        · exact selectRepresentativesWith_subset env cb hcb _ x
            (List.mem_toFinset.1 hx)
        · exact List.mem_of_mem_filter (List.mem_toFinset.1 hx)
      show env.score (env.selector x) ≤ env.score (env.selector
        ((selectRepresentativesWith env cb (finsetToList c)).headD ""))
      rw [selectRepresentativesWith_headD env cb (finsetToList c) hlnot]
      exact sortByKeyDesc_head_max (fun e => env.score (env.selector e))
        (finsetToList c) x hxc

/-- C4: every duplicate set `processResults` builds from a (nonempty,
non-singleton, hence size ≥ 2) cluster has its `bestFile` among the
representatives, disjoint representative and duplicate sets, and a
`bestFile` whose entry score is maximal over the whole set.  The theorem
holds for every score function, hence in particular for
`calculateEntryScore` (whose log/sqrt mixture is carried by `Env.score`),
and for every callback standing for the recursive `deduplicateFiles` call
that returns unique files from within its input. -/
theorem c4_duplicate_set_invariants (env : Env)
    (cb : List String → DeduplicationResult)
    (hcb : ∀ fs, (cb fs).uniqueFiles ⊆ fs.toFinset)
    (clusters : List (Finset String)) (hne : ∀ c ∈ clusters, c.Nonempty) :
    ∀ d ∈ (processResultsWith env cb clusters).duplicateSets,
      d.bestFile ∈ d.representatives ∧
      Disjoint d.representatives d.duplicates ∧
      ∀ x ∈ d.representatives ∪ d.duplicates,
        env.score (env.selector x) ≤ env.score (env.selector d.bestFile) := by
  suffices h : ∀ (cs : List (Finset String)) (acc : Finset String × List DupSet),
      (∀ c ∈ cs, c.Nonempty) → (∀ d ∈ acc.2, DupSetOk env d) →
      ∀ d ∈ (cs.foldl (processResultsStep env cb) acc).2, DupSetOk env d by
    intro d hd
    exact h clusters (∅, []) hne (by simp) d hd
  intro cs
  induction cs with
  | nil => intro acc _ hacc d hd; exact hacc d hd
  | cons c cs ih =>
    intro acc hne1 hacc d hd
    rw [List.foldl_cons] at hd
    refine ih _ (fun c' hc' => hne1 c' (by simp [hc'])) ?_ d hd
    by_cases hcard : c.card = 1
    · intro d' hd'
      rw [processResultsStep, if_pos hcard] at hd'
      exact hacc d' hd'
    · exact processResultsStep_dupset env cb hcb c (hne1 c (by simp)) hcard
        acc hacc

/-- Concrete selector for witnesses: every path is the same still image. -/
def selectorImg : String → FileInfo :=
  fun _ => ⟨⟨0, [frameZero]⟩, ⟨false, none, none⟩⟩

/-- Concrete environment for witnesses: self-reporting search oracle and a
constant score. -/
def envW : Env := ⟨cfgHalf, selectorImg, selectorImg, fun _ => 0,
  fun q _ => [⟨q, 0⟩]⟩

/-- Concrete callback standing for the recursive dedup call. -/
def cbTrivial : List String → DeduplicationResult :=
  fun fs => ⟨fs.toFinset, []⟩

/-- C4 witness: the theorem applied to the concrete two-element cluster
`{"a", "b"}`, whose produced duplicate set is `⟨"a", {"a"}, {"b"}⟩`. -/
theorem c4_duplicate_set_invariants_witness :
    (⟨"a", {"a"}, {"b"}⟩ : DupSet).bestFile ∈
      (⟨"a", {"a"}, {"b"}⟩ : DupSet).representatives ∧
    Disjoint (⟨"a", {"a"}, {"b"}⟩ : DupSet).representatives
      (⟨"a", {"a"}, {"b"}⟩ : DupSet).duplicates ∧
    ∀ x ∈ (⟨"a", {"a"}, {"b"}⟩ : DupSet).representatives ∪
        (⟨"a", {"a"}, {"b"}⟩ : DupSet).duplicates,
      envW.score (envW.selector x) ≤
        envW.score (envW.selector (⟨"a", {"a"}, {"b"}⟩ : DupSet).bestFile) :=
  c4_duplicate_set_invariants envW cbTrivial
    (fun fs => by simp [cbTrivial])
    [{"a", "b"}]
    (by
      intro c hc
      simp only [List.mem_singleton] at hc
      subst hc
      exact ⟨"a", by decide⟩)
    ⟨"a", {"a"}, {"b"}⟩
    (by with_unfolding_all decide)

/-! ### C3: overlap merge and batching -/

lemma foldl_union_mem :
    ∀ (l : List (Finset String)) (c : Finset String) (x : String),
    x ∈ l.foldl (· ∪ ·) c ↔ x ∈ c ∨ ∃ r ∈ l, x ∈ r := by
  intro l
  induction l with
  | nil => intro c x; simp
  | cons r rs ih =>
    intro c x
    rw [List.foldl_cons, ih]
    simp only [Finset.mem_union, List.mem_cons]
    constructor
    · rintro ((h | h) | ⟨r', hr', hx⟩)
      · exact Or.inl h
      · exact Or.inr ⟨r, Or.inl rfl, h⟩
      · exact Or.inr ⟨r', Or.inr hr', hx⟩
    · rintro (h | ⟨r', hr' | hr', hx⟩)
      · exact Or.inl (Or.inl h)
      · subst hr'; exact Or.inl (Or.inr hx)
      · exact Or.inr ⟨r', hr', hx⟩

lemma mergeStep_union (merged : List (Finset String)) (c : Finset String) :
    clustersUnion (mergeStep merged c) = clustersUnion merged ∪ c := by
  by_cases hrel : (merged.filter (fun c' => decide (c' ∩ c ≠ ∅))).isEmpty
  · have hnone : ∀ m ∈ merged, m ∩ c = ∅ := by
      intro m hm
      by_contra hne
      have : m ∈ merged.filter (fun c' => decide (c' ∩ c ≠ ∅)) :=
        List.mem_filter.2 ⟨hm, by simpa using hne⟩
      rw [List.isEmpty_iff.1 hrel] at this
      cases this
    rw [mergeStep]
    simp only [hrel, if_true]
    ext x
    simp only [mem_clustersUnion, List.mem_append, List.mem_singleton,
      Finset.mem_union]
    constructor
    · rintro ⟨c', hc' | rfl, hx⟩
      · exact Or.inl ⟨c', hc', hx⟩
      · exact Or.inr hx
    · rintro (⟨c', hc', hxc⟩ | hx)
      · exact ⟨c', Or.inl hc', hxc⟩
      · exact ⟨c, Or.inr rfl, hx⟩
  · rw [mergeStep]
    simp only [hrel, Bool.false_eq_true, if_false]
    ext x
    simp only [mem_clustersUnion, List.mem_append, List.mem_singleton,
      Finset.mem_union]
    constructor
    · rintro ⟨c', hc' | rfl, hx⟩
      · exact Or.inl ⟨c', List.mem_of_mem_filter hc', hx⟩
      · rcases (foldl_union_mem _ _ _).1 hx with hx | ⟨r, hr, hx⟩
        · exact Or.inr hx
        · exact Or.inl ⟨r, List.mem_of_mem_filter hr, hx⟩
    · rintro (⟨c', hc', hxc⟩ | hx)
      · by_cases hdisj : c' ∩ c = ∅
        · exact ⟨c', Or.inl (List.mem_filter.2 ⟨hc', by simpa using hdisj⟩), hxc⟩
        · refine ⟨_, Or.inr rfl, (foldl_union_mem _ _ _).2 (Or.inr ⟨c', ?_, hxc⟩)⟩
          exact List.mem_filter.2 ⟨hc', by simpa using hdisj⟩
      · exact ⟨_, Or.inr rfl, (foldl_union_mem _ _ _).2 (Or.inl hx)⟩

lemma mergeStep_pairwise (merged : List (Finset String)) (c : Finset String)
    (hpw : merged.Pairwise Disjoint) :
    (mergeStep merged c).Pairwise Disjoint := by
  by_cases hrel : (merged.filter (fun c' => decide (c' ∩ c ≠ ∅))).isEmpty
  · have hnone : ∀ m ∈ merged, Disjoint m c := by
      intro m hm
      by_contra hne
      have hin : m ∈ merged.filter (fun c' => decide (c' ∩ c ≠ ∅)) :=
        List.mem_filter.2 ⟨hm, by
          simp only [decide_eq_true_eq]
          exact fun he => hne (Finset.disjoint_iff_inter_eq_empty.2 he)⟩
      rw [List.isEmpty_iff.1 hrel] at hin
      cases hin
    rw [mergeStep]
    simp only [hrel, if_true]
    rw [List.pairwise_append]
    exact ⟨hpw, by simp, fun m hm c' hc' => by
      simp only [List.mem_singleton] at hc'
      subst hc'
      exact hnone m hm⟩
  · rw [mergeStep]
    simp only [hrel, Bool.false_eq_true, if_false]
    rw [List.pairwise_append]
    refine ⟨List.Pairwise.sublist (List.filter_sublist merged) hpw, by simp, ?_⟩
    intro k hk u hu
    simp only [List.mem_singleton] at hu
    subst hu
    have hkm := List.mem_of_mem_filter hk
    have hkc : Disjoint k c := by
      have := (List.mem_filter.1 hk).2
      simp only [decide_eq_true_eq] at this
      exact Finset.disjoint_iff_inter_eq_empty.2 this
    rw [Finset.disjoint_left]
    intro x hxk hxu
    rcases (foldl_union_mem _ _ _).1 hxu with hxc | ⟨r, hr, hxr⟩
    · exact (Finset.disjoint_left.1 hkc) hxk hxc
    · have hrm := List.mem_of_mem_filter hr
      have hkr : k ≠ r := by
        intro he
        subst he
        have := (List.mem_filter.1 hr).2
        simp only [decide_eq_true_eq] at this
        exact this ((Finset.disjoint_iff_inter_eq_empty).1 hkc)
      have := hpw.forall (fun a b h => h.symm) hkm hrm hkr
      exact (Finset.disjoint_left.1 this) hxk hxr

lemma mergeAndDeduplicate_spec (clusters : List (Finset String)) :
    (mergeAndDeduplicate clusters).Pairwise Disjoint ∧
    clustersUnion (mergeAndDeduplicate clusters) = clustersUnion clusters := by
  suffices h : ∀ (cs : List (Finset String)) (acc : List (Finset String)),
      acc.Pairwise Disjoint →
      (cs.foldl mergeStep acc).Pairwise Disjoint ∧
      clustersUnion (cs.foldl mergeStep acc) =
        clustersUnion acc ∪ clustersUnion cs by
    obtain ⟨h1, h2⟩ := h clusters [] (by simp)
    refine ⟨h1, ?_⟩
    rw [mergeAndDeduplicate, h2]
    simp [clustersUnion]
  intro cs
  induction cs with
  | nil =>
    intro acc hacc
    refine ⟨hacc, ?_⟩
    simp [clustersUnion]
  | cons c cs ih =>
    intro acc hacc
    rw [List.foldl_cons]
    obtain ⟨h1, h2⟩ := ih (mergeStep acc c) (mergeStep_pairwise acc c hacc)
    refine ⟨h1, ?_⟩
    rw [h2, mergeStep_union]
    have : clustersUnion (c :: cs) = c ∪ clustersUnion cs := rfl
    rw [this]
    ext x
    simp only [Finset.mem_union]
    tauto

lemma chunkBatches_flatten : ∀ l : List String, (chunkBatches l).flatten = l := by
  have h : ∀ (n : ℕ) (l : List String), l.length ≤ n →
      (chunkBatches l).flatten = l := by
    intro n
    induction n with
    | zero =>
      intro l hl
      have hnil : l = [] := List.length_eq_zero.1 (by omega)
      subst hnil
      rw [chunkBatches]
      rfl
    | succ n ih =>
      intro l hl
      cases l with
      | nil => rw [chunkBatches]; rfl
      | cons x xs =>
        rw [chunkBatches, List.flatten_cons,
          ih ((x :: xs).drop 2048)
            (by simp only [List.length_drop, List.length_cons] at hl ⊢; omega)]
        exact List.take_append_drop _ _
  exact fun l => h l.length l (le_refl _)

lemma reps_dups_cover (env : Env) (cb : List String → DeduplicationResult)
    (hcb : ∀ fs, (cb fs).uniqueFiles ⊆ fs.toFinset) (c : Finset String) :
    (selectRepresentativesWith env cb (finsetToList c)).toFinset ∪
    ((finsetToList c).filter (fun f => decide
      (f ∉ (selectRepresentativesWith env cb (finsetToList c)).toFinset))).toFinset
    = c := by
  ext x
  simp only [Finset.mem_union, List.mem_toFinset, List.mem_filter,
    decide_eq_true_eq]
  constructor
  · rintro (hx | ⟨hx, -⟩)
    · have h := selectRepresentativesWith_subset env cb hcb _ x hx
      rw [finsetToList, Finset.mem_sort] at h
      exact h
    · rw [finsetToList, Finset.mem_sort] at hx
      exact hx
  · intro hx
    by_cases hr : x ∈ selectRepresentativesWith env cb (finsetToList c)
    · exact Or.inl hr
    · refine Or.inr ⟨?_, ?_⟩
      · rw [finsetToList, Finset.mem_sort]
        exact hx
      · exact hr

lemma clustersUnion_cons (a : Finset String) (l : List (Finset String)) :
    clustersUnion (a :: l) = a ∪ clustersUnion l := rfl

lemma clustersUnion_append (l1 l2 : List (Finset String)) :
    clustersUnion (l1 ++ l2) = clustersUnion l1 ∪ clustersUnion l2 := by
  ext x
  simp only [mem_clustersUnion, List.mem_append, Finset.mem_union]
  constructor
  · rintro ⟨m, hm | hm, hx⟩
    · exact Or.inl ⟨m, hm, hx⟩
    · exact Or.inr ⟨m, hm, hx⟩
  · rintro (⟨m, hm, hx⟩ | ⟨m, hm, hx⟩)
    · exact ⟨m, Or.inl hm, hx⟩
    · exact ⟨m, Or.inr hm, hx⟩

lemma map_dupset_singleton (ds : List DupSet) (b : String)
    (r du : Finset String) :
    ((ds ++ [(⟨b, r, du⟩ : DupSet)]).map
      (fun d : DupSet => d.representatives ∪ d.duplicates)) =
    (ds.map (fun d : DupSet => d.representatives ∪ d.duplicates)) ++ [r ∪ du] := by
  rw [List.map_append]
  rfl

lemma processResults_partition_aux (env : Env)
    (cb : List String → DeduplicationResult)
    (hcb : ∀ fs, (cb fs).uniqueFiles ⊆ fs.toFinset) :
    ∀ (cs : List (Finset String)) (acc : Finset String × List DupSet)
      (U : Finset String),
    cs.Pairwise Disjoint →
    (∀ c ∈ cs, Disjoint c U) →
    (acc.1 :: acc.2.map
      (fun d => d.representatives ∪ d.duplicates)).Pairwise Disjoint →
    clustersUnion (acc.1 :: acc.2.map
      (fun d => d.representatives ∪ d.duplicates)) = U →
    ((cs.foldl (processResultsStep env cb) acc).1 ::
        (cs.foldl (processResultsStep env cb) acc).2.map
          (fun d => d.representatives ∪ d.duplicates)).Pairwise Disjoint ∧
    clustersUnion ((cs.foldl (processResultsStep env cb) acc).1 ::
        (cs.foldl (processResultsStep env cb) acc).2.map
          (fun d => d.representatives ∪ d.duplicates)) =
      U ∪ clustersUnion cs := by
  intro cs
  induction cs with
  | nil =>
    intro acc U _ _ hpw huni
    refine ⟨hpw, ?_⟩
    rw [List.foldl_nil, huni]
    simp [clustersUnion]
  | cons c cs ih =>
    intro acc U hcs hdisjU hpw huni
    have hsubU : ∀ m ∈ acc.1 :: acc.2.map
        (fun d => d.representatives ∪ d.duplicates), m ⊆ U := by
      intro m hm x hx
      rw [← huni]
      exact mem_clustersUnion.2 ⟨m, hm, hx⟩
    have hdU : Disjoint c U := hdisjU c (by simp)
    have hcs' : cs.Pairwise Disjoint := List.Pairwise.of_cons hcs
    have hdisjU' : ∀ c' ∈ cs, Disjoint c' (U ∪ c) := by
      intro c' hc'
      rw [Finset.disjoint_union_right]
      exact ⟨hdisjU c' (by simp [hc']),
        (List.rel_of_pairwise_cons hcs hc').symm⟩
    have hfinal : ∀ acc' : Finset String × List DupSet,
        (acc'.1 :: acc'.2.map
          (fun d => d.representatives ∪ d.duplicates)).Pairwise Disjoint →
        clustersUnion (acc'.1 :: acc'.2.map
          (fun d => d.representatives ∪ d.duplicates)) = U ∪ c →
        ((cs.foldl (processResultsStep env cb) acc').1 ::
            (cs.foldl (processResultsStep env cb) acc').2.map
              (fun d => d.representatives ∪ d.duplicates)).Pairwise Disjoint ∧
        clustersUnion ((cs.foldl (processResultsStep env cb) acc').1 ::
            (cs.foldl (processResultsStep env cb) acc').2.map
              (fun d => d.representatives ∪ d.duplicates)) =
          U ∪ clustersUnion (c :: cs) := by
      intro acc' hpw' huni'
      obtain ⟨h1, h2⟩ := ih acc' (U ∪ c) hcs' hdisjU' hpw' huni'
      refine ⟨h1, ?_⟩
      rw [h2, clustersUnion_cons]
      ext x
      simp only [Finset.mem_union]
      tauto
    rw [List.foldl_cons]
    by_cases hcard : c.card = 1
    · rw [processResultsStep_card_one env cb acc c hcard]
      refine hfinal ((acc.1 ∪ c), acc.2) ?_ ?_
      · rw [List.pairwise_cons] at hpw ⊢
        refine ⟨?_, hpw.2⟩
        intro m hm
        rw [Finset.disjoint_union_left]
        exact ⟨hpw.1 m hm, Finset.disjoint_of_subset_right
          (hsubU m (by simp [hm])) hdU⟩
      · rw [clustersUnion_cons] at huni ⊢
        rw [← huni]
        ext x
        simp only [Finset.mem_union]
        tauto
    · rw [processResultsStep_big env cb acc c hcard]
      have hds : (selectRepresentativesWith env cb (finsetToList c)).toFinset ∪
          ((finsetToList c).filter (fun f => decide
            (f ∉ (selectRepresentativesWith env cb
              (finsetToList c)).toFinset))).toFinset = c :=
        reps_dups_cover env cb hcb c
      have hmap : ((acc.2 ++
          [(⟨(selectRepresentativesWith env cb (finsetToList c)).headD "",
            (selectRepresentativesWith env cb (finsetToList c)).toFinset,
            ((finsetToList c).filter (fun f => decide
              (f ∉ (selectRepresentativesWith env cb
                (finsetToList c)).toFinset))).toFinset⟩ : DupSet)]).map
            (fun d => d.representatives ∪ d.duplicates)) =
          (acc.2.map (fun d => d.representatives ∪ d.duplicates)) ++ [c] := by
        rw [map_dupset_singleton, hds]
      refine hfinal _ ?_ ?_
      · rw [hmap, List.pairwise_cons] at *
        rcases hpw with ⟨hpw1, hpw2⟩
        constructor
        · intro m hm
          rcases List.mem_append.1 hm with hm | hm
          · exact hpw1 m hm
          · simp only [List.mem_singleton] at hm
            subst hm
            exact (Finset.disjoint_of_subset_right
              (hsubU acc.1 (by simp)) hdU).symm
        · rw [List.pairwise_append]
          refine ⟨hpw2, by simp, ?_⟩
          intro m hm m' hm'
          simp only [List.mem_singleton] at hm'
          subst hm'
          exact (Finset.disjoint_of_subset_right
            (hsubU m (by simp [hm])) hdU).symm
      · rw [hmap, clustersUnion_cons, clustersUnion_append,
          show clustersUnion [c] = c from by simp [clustersUnion]]
        rw [clustersUnion_cons] at huni
        rw [← huni]
        ext x
        simp only [Finset.mem_union]
        tauto

lemma dedupFuel_partition :
    ∀ (fuel : ℕ) (env : Env) (files : List String),
    ((deduplicateFilesFuel env fuel files).uniqueFiles ::
      (deduplicateFilesFuel env fuel files).duplicateSets.map
        (fun d => d.representatives ∪ d.duplicates)).Pairwise Disjoint ∧
    clustersUnion ((deduplicateFilesFuel env fuel files).uniqueFiles ::
      (deduplicateFilesFuel env fuel files).duplicateSets.map
        (fun d => d.representatives ∪ d.duplicates)) = files.toFinset := by
  intro fuel
  induction fuel with
  | zero =>
    intro env files
    rw [deduplicateFilesFuel]
    exact ⟨by simp, by simp [clustersUnion]⟩
  | succ fuel ih =>
    intro env files
    have hcb : ∀ fs, (deduplicateFilesFuel env fuel fs).uniqueFiles ⊆
        fs.toFinset := by
      intro fs x hx
      rw [← (ih env fs).2]
      exact mem_clustersUnion.2 ⟨_, by simp, hx⟩
    set t : VPTreeModel := ⟨files, env.resultsFor⟩ with ht
    set clusters : List (Finset String) :=
      ((chunkBatches files).map (fun batch => workerDBSCAN env t batch)).flatten
      with hclusters
    have hcover : ∀ p ∈ files, p ∈ clustersUnion clusters := by
      intro p hp
      have hbatch : ∃ b ∈ chunkBatches files, p ∈ b := by
        rw [← List.mem_flatten, chunkBatches_flatten]
        exact hp
      obtain ⟨b, hb, hpb⟩ := hbatch
      obtain ⟨-, -, h3, -⟩ := scanLoop_spec env t (dedupEps env.cfg) b ∅ []
        (by simp) (by simp [clustersUnion])
      obtain ⟨c, hc, hpc⟩ := mem_clustersUnion.1 (h3 p hpb)
      refine mem_clustersUnion.2 ⟨c, ?_, hpc⟩
      rw [hclusters, List.mem_flatten]
      exact ⟨workerDBSCAN env t b, List.mem_map.2 ⟨b, hb, rfl⟩, hc⟩
    have hbound : ∀ x ∈ clustersUnion clusters, x ∈ files := by
      intro x hx
      obtain ⟨c, hc, hxc⟩ := mem_clustersUnion.1 hx
      rw [hclusters, List.mem_flatten] at hc
      obtain ⟨cl, hcl, hccl⟩ := hc
      obtain ⟨b, hb, rfl⟩ := List.mem_map.1 hcl
      obtain ⟨-, -, -, h4⟩ := scanLoop_spec env t (dedupEps env.cfg) b ∅ []
        (by simp) (by simp [clustersUnion])
      have := h4 (mem_clustersUnion.2 ⟨c, hccl, hxc⟩)
      simp only [Finset.not_mem_empty, false_or, Set.mem_setOf_eq] at this
      rcases this with h | h
      · have : b ∈ chunkBatches files := hb
        rw [← chunkBatches_flatten files, List.mem_flatten]
        exact ⟨b, hb, h⟩
      · exact h
    have huniC : clustersUnion (mergeAndDeduplicate clusters) =
        files.toFinset := by
      rw [(mergeAndDeduplicate_spec clusters).2]
      ext x
      simp only [List.mem_toFinset]
      exact ⟨hbound x, hcover x⟩
    have hres := processResults_partition_aux env
      (deduplicateFilesFuel env fuel) hcb (mergeAndDeduplicate clusters)
      (∅, []) ∅ (mergeAndDeduplicate_spec clusters).1 (by simp)
      (by simp) (by simp [clustersUnion])
    rw [huniC] at hres
    simp only [Finset.empty_union] at hres
    rw [deduplicateFilesFuel]
    exact ⟨hres.1, hres.2⟩

/-- C3: the deduplication result of `deduplicateFiles` partitions the
input file set — `uniqueFiles` together with `representatives ∪
duplicates` of every duplicate set are pairwise disjoint, and their union
is exactly the set of input files, so every input file appears exactly
once across these sets. -/
theorem c3_deduplication_partitions_input (env : Env) (files : List String) :
    ((deduplicateFiles env files).uniqueFiles ::
      (deduplicateFiles env files).duplicateSets.map
        (fun d => d.representatives ∪ d.duplicates)).Pairwise Disjoint ∧
    clustersUnion ((deduplicateFiles env files).uniqueFiles ::
      (deduplicateFiles env files).duplicateSets.map
        (fun d => d.representatives ∪ d.duplicates)) = files.toFinset := by
  rw [deduplicateFiles]
  exact dedupFuel_partition (files.length + 1) env files

end PhotoOrganizer
